import Mathlib

/-!
# Verification of the file-backed B-tree library

This file embeds the core of `BTreeLib` (the templated class `BTree<KeySize,
DataSize, NodeSize>` in `BTree.h` and the collaborator `ProductIndex` in
`ProductIndex.cpp`) into Lean and proves the frozen claims about it.

Embedding conventions:

* Byte strings (C `char` buffers) are `List Nat`.  All keys that reach the
  comparison routines have been normalised by the `strncpy`-into-zeroed-buffer
  idiom of `BTree::insert` / `BTree::retrieve`, so they contain no zero byte
  and have length at most `KeySize - 1`; `cmpStr` below is `std::strcmp` on
  such strings, with the end of the list standing for the null terminator.
* The on-disk node store is addressed by node identifiers; identifiers are
  allocated sequentially and each allocated node is attached at exactly one
  branch slot, so the reachable store is a tree.  We make that explicit: a
  `BTr` is either `nil` (the `NilPtr = -1` sentinel branch) or a node holding
  its live records (`records[0..count)`) and its `count + 1` live branch
  subtrees.  Writing a node back to its slot becomes replacing the subtree.
* `size_t` arithmetic of the order computation is modelled exactly, as
  naturals reduced modulo `2 ^ 64`.
* The pager (`readNode` / `writeNode`) and the file itself are modelled
  byte-exactly and separately: a file is a `List Nat` of bytes, a write seeks
  to `nodeNum * sizeof(Node)` and overwrites (or appends) one block.
* Fallible operations return `Option` / a paired error component; C++
  exceptions (`DuplicateKey`, `NotWritable`) become error values.
-/

/-- Byte strings: the contents of a C character buffer up to the terminator. -/
abbrev Key := List Nat

/-- Payload bytes (`DataSize` opaque bytes). -/
abbrev Data := List Nat

/-- Model of `std::strcmp` on null-free byte strings: the end of the list
plays the role of the null terminator, which compares below every nonzero
byte.  (`strcmp` compares as `unsigned char`.) -/
def cmpStr : List Nat → List Nat → Ordering
  | [], [] => Ordering.eq
  | [], _ :: _ => Ordering.lt
  | _ :: _, [] => Ordering.gt
  | a :: as, b :: bs =>
    if a < b then Ordering.lt
    else if b < a then Ordering.gt
    else cmpStr as bs

/-- Strict key order used by the B-tree (`strcmp < 0`). -/
def keyLt (a b : Key) : Prop := cmpStr a b = Ordering.lt

/-- Key normalisation of `BTree::insert` and `BTree::retrieve`: the caller's
key is copied by `strncpy` into a zero-filled buffer of `KeySize` bytes,
copying at most `KeySize - 1` bytes and stopping at the first null.  The
stored C string is therefore the input cut at its first zero byte and
truncated to `KeySize - 1` bytes. -/
def truncKey (K : Nat) (key : List Nat) : List Nat :=
  (key.takeWhile (fun c => c != 0)).take (K - 1)

/-! ## Geometry (`Order`, `MaxKeys`, `MinKeys`, `sizeof(Node)`)

`OrderCalc = (NodeSize - sizeof(int) + RecordSize + sizeof(long)) /
(RecordSize + sizeof(long))` is computed in `size_t`, i.e. modulo `2 ^ 64`
(with `sizeof(int) = 4`, `sizeof(long) = 8`). -/

/-- The modulus of `size_t` arithmetic. -/
def U64 : Nat := 18446744073709551616

/-- Reduction modulo `2 ^ 64`, the wrap-around of `size_t`. -/
def u64 (n : Nat) : Nat := n % U64

/-- `BTree::RecordSize = KeySize + DataSize` (as `size_t`). -/
def recordSizeBT (K D : Nat) : Nat := u64 (K + D)

/-- `BTree::OrderCalc`, including the (possibly wrapping) `NodeSize - 4`. -/
def orderCalcBT (K D N : Nat) : Nat :=
  u64 (u64 (u64 (N + (U64 - 4)) + recordSizeBT K D) + 8) /
    u64 (recordSizeBT K D + 8)

/-- `BTree::Order`: `OrderCalc` clamped below by `3`. -/
def orderBT (K D N : Nat) : Nat :=
  if orderCalcBT K D N < 3 then 3 else orderCalcBT K D N

/-- `BTree::MaxKeys = Order - 1`. -/
def maxKeysBT (K D N : Nat) : Nat := orderBT K D N - 1

/-- `BTree::MinKeys = (Order - 1) / 2` (integer division). -/
def minKeysBT (K D N : Nat) : Nat := (orderBT K D N - 1) / 2

/-- `BTree::ActualNodeSize = sizeof(Node)` for the `#pragma pack(1)` struct
`{ int count; Record records[MaxKeys]; long branches[Order]; }`:
`4 + MaxKeys * (KeySize + DataSize) + Order * 8` bytes. -/
def actualNodeSizeBT (K D N : Nat) : Nat :=
  4 + maxKeysBT K D N * (K + D) + orderBT K D N * 8

/-- Modelled from the spec: the spec sentence
`Order = max(3, floor((N - 4 + (K+D) + B) / ((K+D) + B)))` with branch width
`B = 8`, read over the integers (so `N - 4` may be negative). -/
def specOrderFormula (K D N : Nat) : Nat :=
  max 3 (((N : Int) - 4 + ((K : Int) + (D : Int)) + 8) /
    (((K : Int) + (D : Int)) + 8)).toNat

/-! ## The B-tree proper -/

/-- `BTree::Record`: a fixed-width key plus a fixed-width payload.  We keep
only the meaningful bytes (key up to the terminator, payload as given). -/
structure BRec where
  key : Key
  data : Data
deriving DecidableEq, Repr

instance : Inhabited BRec := ⟨⟨[], []⟩⟩

/-- The reachable node store.  `nil` is the `NilPtr` sentinel; a `node`
carries the `count` live records and the `count + 1` live branch subtrees of
one on-disk node. -/
inductive BTr where
  | nil : BTr
  | node (recs : List BRec) (branches : List BTr) : BTr
deriving Inhabited

/-- Branch lookup: `branches[g]`, with the sentinel for an out-of-range slot
(in a well-formed tree the index is always in range). -/
def getT : List BTr → Nat → BTr
  | [], _ => BTr.nil
  | b :: _, 0 => b
  | _ :: bs, g + 1 => getT bs g

/-- Insertion of one element at an index, shifting the suffix right by one:
the list form of the shifting loop in `BTree::addRecord`. -/
def insertAtL {α : Type} (l : List α) (i : Nat) (a : α) : List α :=
  l.take i ++ a :: l.drop i

/-- The scan loop of `BTree::searchNode`: starting from `location = count - 1`
walk left while the target is strictly below `records[location].key`. -/
def scanDown (sk : Key) (recs : List BRec) : Nat → Nat
  | 0 => 0
  | l + 1 =>
    if cmpStr sk ((recs.getD (l + 1) default).key) = Ordering.lt then
      scanDown sk recs l
    else l + 1

/-- `BTree::searchNode`: returns the found flag and the `location` (an `int`,
`-1` when the target precedes every record). -/
def searchNode (sk : Key) (recs : List BRec) : Bool × Int :=
  match recs with
  | [] => (false, -1)
  | r0 :: _ =>
    if cmpStr sk r0.key = Ordering.lt then (false, -1)
    else
      (decide (cmpStr sk
          ((recs.getD (scanDown sk recs (recs.length - 1)) default).key) =
          Ordering.eq),
       (scanDown sk recs (recs.length - 1) : Int))

/-- `BTree::addRecord`: put `r` at record slot `loc` and `rb` at branch slot
`loc + 1`, shifting the later records and branches right by one. -/
def addRecord (r : BRec) (rb : BTr) (recs : List BRec) (brs : List BTr)
    (loc : Nat) : List BRec × List BTr :=
  (insertAtL recs loc r, insertAtL brs (loc + 1) rb)

/-- `BTree::split`.  `recs`/`brs` are the contents of the full node
(`count = MaxKeys`), `location` the gap returned by `searchNode`, `cr`/`crt`
the record and right branch being pushed in.  The result is the promoted
record, the updated left node (kept in the old slot) and the new right node.
The fresh right node starts as `Node()` whose branch slot `0` is `NilPtr`
until the promotion step overwrites it with the left node's last branch. -/
def splitNode (minK : Nat) (cr : BRec) (crt : BTr) (recs : List BRec)
    (brs : List BTr) (location : Int) : BRec × BTr × BTr :=
  let median : Nat := if location < (minK : Int) then minK else minK + 1
  let parts :=
    if location < (minK : Int) then
      let p := addRecord cr crt (recs.take median) (brs.take (median + 1))
        (location + 1).toNat
      (p.1, p.2, recs.drop median, BTr.nil :: brs.drop (median + 1))
    else
      let p := addRecord cr crt (recs.drop median)
        (BTr.nil :: brs.drop (median + 1)) (location - (median : Int) + 1).toNat
      (recs.take median, brs.take (median + 1), p.1, p.2)
  match parts with
  | (lRecs, lBrs, rRecs, rBrs) =>
    (lRecs.getLastD default,
     BTr.node lRecs.dropLast lBrs.dropLast,
     BTr.node rRecs (lBrs.getLastD BTr.nil :: rBrs.tail))

/-- Errors raised by `BTree::insert` (as C++ `std::runtime_error`). -/
inductive BErr where
  | duplicateKey : BErr
  | notWritable : BErr
deriving DecidableEq, Repr

/-- `BTree::pushDown`: recursive descent of `insert`.  The result is the
updated subtree in the old slot together with `none` (no promotion, `moveUp
= false`) or `some (newRecord, newRight)` (`moveUp = true`).  Falling off a
leaf promotes the incoming record with a `NilPtr` right branch.  A hit on the
way down raises the duplicate-key error before anything is written. -/
def pushDown (minK maxK : Nat) (r : BRec) :
    BTr → Except BErr (BTr × Option (BRec × BTr))
  | BTr.nil => Except.ok (BTr.nil, some (r, BTr.nil))
  | BTr.node recs brs =>
    let sr := searchNode r.key recs
    if sr.1 then Except.error BErr.duplicateKey
    else
      let g := (sr.2 + 1).toNat
      match pushDown minK maxK r (getT brs g) with
      | Except.error e => Except.error e
      | Except.ok (c', none) => Except.ok (BTr.node recs (brs.set g c'), none)
      | Except.ok (c', some (nr, rt)) =>
        let brs' := brs.set g c'
        if recs.length < maxK then
          let p := addRecord nr rt recs brs' g
          Except.ok (BTr.node p.1 p.2, none)
        else
          let res := splitNode minK nr rt recs brs' sr.2
          Except.ok (res.2.1, some (res.1, res.2.2))
decreasing_by
  have hget : ∀ (bs : List BTr) (i : Nat), sizeOf (getT bs i) ≤ sizeOf bs := by
    intro bs
    induction bs with
    | nil => intro i; cases i <;> simp [getT]
    | cons b bs ih =>
      intro i
      cases i with
      | zero => simp [getT]; omega
      | succ j =>
        have := ih j
        simp [getT]; omega
  have h1 : (1 : Nat) ≤ sizeOf recs := by cases recs <;> simp <;> omega
  have := hget brs (((searchNode r.key recs).2 + 1).toNat)
  simp only [BTr.node.sizeOf_spec]
  omega

/-- The iterative lookup walk of `BTree::retrieve`, after key normalisation:
load the node, search it, return the payload on a hit, otherwise follow
`branches[location + 1]`; a `NilPtr` branch ends the walk with `none`. -/
def retrieveLoop (sk : Key) : BTr → Option Data
  | BTr.nil => none
  | BTr.node recs brs =>
    let sr := searchNode sk recs
    if sr.1 then some ((recs.getD sr.2.toNat default).data)
    else retrieveLoop sk (getT brs ((sr.2 + 1).toNat))
decreasing_by
  have hget : ∀ (bs : List BTr) (i : Nat), sizeOf (getT bs i) ≤ sizeOf bs := by
    intro bs
    induction bs with
    | nil => intro i; cases i <;> simp [getT]
    | cons b bs ih =>
      intro i
      cases i with
      | zero => simp [getT]; omega
      | succ j =>
        have := ih j
        simp [getT]; omega
  have h1 : (1 : Nat) ≤ sizeOf recs := by cases recs <;> simp <;> omega
  have := hget brs (((searchNode sk recs).2 + 1).toNat)
  simp only [BTr.node.sizeOf_spec]
  omega

/-- Record-first interleaving `r0 :: s0 ++ r1 :: s1 ++ ...` of records with
branch contents, used to spell out the in-order contents of a node. -/
def interR : List BRec → List (List BRec) → List BRec
  | [], _ => []
  | r :: _, [] => [r]
  | r :: rs, s :: ss => r :: s ++ interR rs ss

/-- Branch-first interleaving `s0 ++ r0 :: s1 ++ r1 :: ... ++ sc`: the
in-order contents of a node given the contents of its branches. -/
def joinInter : List (List BRec) → List BRec → List BRec
  | [], _ => []
  | s :: ss, rs => s ++ interR rs ss

/-- In-order contents of a subtree: everything below branch `0`, then record
`0`, then everything below branch `1`, and so on. -/
def inorder : BTr → List BRec
  | BTr.nil => []
  | BTr.node recs brs =>
    joinInter (brs.attach.map fun b => inorder b.1) recs
decreasing_by
  have h1 : (1 : Nat) ≤ sizeOf recs := by cases recs <;> simp <;> omega
  have := List.sizeOf_lt_of_mem b.2
  simp only [BTr.node.sizeOf_spec]
  omega

/-- Contents strictly left of the gap before branch `g`: branches
`0 .. g - 1` interleaved with records `0 .. g - 1`. -/
def ctxA : Nat → List BRec → List BTr → List BRec
  | 0, _, _ => []
  | g + 1, recs, brs =>
    inorder (getT brs 0) ++ recs.headD default :: ctxA g recs.tail brs.tail

/-- Contents strictly right of branch `g`: records `g ..` interleaved with
branches `g + 1 ..`. -/
def ctxB (g : Nat) (recs : List BRec) (brs : List BTr) : List BRec :=
  interR (recs.drop g) ((brs.drop (g + 1)).map inorder)

/-- The record count of the node at the top of a subtree. -/
def countOf : BTr → Nat
  | BTr.nil => 0
  | BTr.node recs _ => recs.length

/-- Strict record order: `Record::operator<`, i.e. `strcmp` on the keys. -/
def recLt (a b : BRec) : Prop := keyLt a.key b.key

/-- Structural well-formedness of the stored tree, relative to the geometry
`minK = MinKeys`, `maxK = MaxKeys`.  `BalGe minK maxK lo h t` says: every
node of `t` has between `MinKeys` and `MaxKeys` records except possibly the
top one, which has between `lo` and `MaxKeys`; every node has one more live
branch than records; and every leaf sits at the same depth `h`.  The root of
the whole tree satisfies `lo = 1`, every other node `lo = minK`. -/
inductive BalGe (minK maxK : Nat) : Nat → Nat → BTr → Prop where
  | nil (lo : Nat) : BalGe minK maxK lo 0 BTr.nil
  | node (lo h : Nat) (recs : List BRec) (brs : List BTr)
      (hlo : lo ≤ recs.length) (hhi : recs.length ≤ maxK)
      (hlen : brs.length = recs.length + 1)
      (hsub : ∀ b ∈ brs, BalGe minK maxK minK h b) :
      BalGe minK maxK lo (h + 1) (BTr.node recs brs)

/-! ## Sessions (`open` / `close` / `insert` / `retrieve` / `contains`)

A session carries the open flag and mode, the tree reachable from `root_`,
and `numItems_`.  `insert` in the source throws before performing any file
write when the session is not writable (line 208) or when `pushDown` meets an
existing key on its way down (line 486, before any node has been written), so
on those paths the post-state equals the pre-state byte for byte; the model
returns the error together with the unchanged state. -/

/-- `BTreeMode`. -/
inductive BTMode where
  | rd : BTMode
  | wr : BTMode
deriving DecidableEq, Repr

/-- One open B-tree session: `isOpen_`, `mode_`, the tree under `root_`, and
`numItems_`. -/
structure BTSession where
  isOpen : Bool
  mode : BTMode
  tree : BTr
  numItems : Nat

/-- `open(filename, BTreeMode::Write)`: truncate, empty tree, zero items. -/
def openWriteS : BTSession := ⟨true, BTMode.wr, BTr.nil, 0⟩

/-- `BTree::insert(key, data)`: reject non-write sessions, normalise the key,
run `pushDown` from the root, grow a new root if a promotion survives to the
top, and finally increment `numItems_`. -/
def insertS (minK maxK K : Nat) (key : List Nat) (d : Data) (s : BTSession) :
    Option BErr × BTSession :=
  if s.isOpen = false ∨ s.mode ≠ BTMode.wr then (some BErr.notWritable, s)
  else
    match pushDown minK maxK ⟨truncKey K key, d⟩ s.tree with
    | Except.error e => (some e, s)
    | Except.ok (t', none) =>
      (none, { s with tree := t', numItems := s.numItems + 1 })
    | Except.ok (t', some (nr, rt)) =>
      (none, { s with tree := BTr.node [nr] [t', rt],
                      numItems := s.numItems + 1 })

/-- `BTree::retrieve(key, data)`: `false` when the session is not open,
otherwise the iterative walk on the normalised key. -/
def retrieveS (K : Nat) (key : List Nat) (s : BTSession) : Option Data :=
  if s.isOpen then retrieveLoop (truncKey K key) s.tree else none

/-- `BTree::contains(key)`: `retrieve` into a scratch buffer. -/
def containsS (K : Nat) (key : List Nat) (s : BTSession) : Bool :=
  (retrieveS K key s).isSome

/-- `BTree::size()` is `numItems_`. -/
def sizeS (s : BTSession) : Nat := s.numItems

/-- `close()` followed by `open(same file, BTreeMode::Read)`: the write session
flushes `numItems_`, `numNodes_`, `root_` into header node `0`; the read
session loads them back, and the node blocks on disk are untouched, so the
reachable tree and the item count are preserved. -/
def closeReopenRead (s : BTSession) : BTSession :=
  ⟨true, BTMode.rd, s.tree, s.numItems⟩

/-- Run a sequence of `insert` calls, stopping at the first error. -/
def runInserts (minK maxK K : Nat) :
    List (List Nat × Data) → BTSession → Option BErr × BTSession
  | [], s => (none, s)
  | (k, d) :: rest, s =>
    match insertS minK maxK K k d s with
    | (some e, s') => (some e, s')
    | (none, s') => runInserts minK maxK K rest s'

/-! ## The pager and the file (byte level)

`readNode` / `writeNode` seek to `nodeNum * ActualNodeSize` and transfer
`ActualNodeSize` bytes.  A file is a list of bytes; a write past the end of
the file extends it (the seek never skips past the end in this program, so
the zero filling is vacuous but kept for fidelity). -/

/-- Overwrite the bytes `off .. off + b.length - 1` of a file with `b`,
extending the file as necessary; all other bytes keep their values. -/
def writeBlock (f : List Nat) (off : Nat) (b : List Nat) : List Nat :=
  f.take off ++ List.replicate (off - f.length) 0 ++ b ++ f.drop (off + b.length)

/-- `BTree::writeNode(nodeNum, node)` on a file: seek to
`nodeNum * ActualNodeSize`, write one `ActualNodeSize`-byte block. -/
def writeNodeF (S : Nat) (f : List Nat) (n : Nat) (b : List Nat) : List Nat :=
  writeBlock f (n * S) b

/-- `BTree::readNode(nodeNum, node)` on a file: seek to
`nodeNum * ActualNodeSize`, read one `ActualNodeSize`-byte block. -/
def readNodeF (S : Nat) (f : List Nat) (n : Nat) : List Nat :=
  (f.drop (n * S)).take S

/-- The write discipline of one write session, as a reachability predicate on
(file bytes, `numNodes_`).  `init` is `open(.., Write)`: truncation followed
by `writeMetadata()` into node `0` (line 174).  `writeOld` covers every write
to an already-allocated slot: the in-place writes of `pushDown` (line 498)
and `split` (line 461) and the header rewrites of `writeMetadata` (node `0`,
also on `close`).  `alloc` covers `numNodes_++` immediately followed by a
write of the fresh node `numNodes_`: line 463-465 in `split` and line 230-232
in `insert` (new root).  Every block written is one `ActualNodeSize`-byte
node image (`S` abstracts `ActualNodeSize`). -/
inductive WSession (S : Nat) : List Nat → Nat → Prop where
  | init (b : List Nat) (hb : b.length = S) : WSession S (writeNodeF S [] 0 b) 0
  | writeOld (f : List Nat) (n id : Nat) (b : List Nat)
      (hs : WSession S f n) (hid : id ≤ n) (hb : b.length = S) :
      WSession S (writeNodeF S f id b) n
  | alloc (f : List Nat) (n : Nat) (b : List Nat)
      (hs : WSession S f n) (hb : b.length = S) :
      WSession S (writeNodeF S f (n + 1) b) (n + 1)

/-! ## The binary-search collaborator (`ProductIndex`)

`ProductRecord` stores a 64-byte zero-padded id (at most 63 significant
bytes, `strncpy_s` semantics identical to the B-tree's key normalisation) and
an `int64_t` payload.  The index file is a `size_t` record count followed by
the packed sorted array; we model it at record granularity as the pair
(count, records), which is faithful because every file access is a whole
record (or the count) at a fixed offset. -/

/-- `MAX_PRODUCT_ID_LEN`. -/
def maxProductIdLen : Nat := 64

/-- Id normalisation of `ProductRecord::ProductRecord` and
`ProductIndex::lookup`: zero-filled 64-byte buffer, at most 63 bytes copied. -/
def truncId (s : List Nat) : List Nat :=
  (s.takeWhile (fun c => c != 0)).take (maxProductIdLen - 1)

/-- `ProductRecord`: normalised id and payload. -/
structure PRec where
  productId : List Nat
  nodeKey : Int
deriving DecidableEq, Repr

instance : Inhabited PRec := ⟨⟨[], 0⟩⟩

/-- `ProductRecord(id, key)`. -/
def mkPRec (id : List Nat) (k : Int) : PRec := ⟨truncId id, k⟩

/-- One insertion step of a sort by `ProductRecord::operator<`
(`strcmp(productId, other.productId) < 0`). -/
def insSorted (x : PRec) : List PRec → List PRec
  | [] => [x]
  | y :: ys =>
    if cmpStr x.productId y.productId = Ordering.gt then y :: insSorted x ys
    else x :: y :: ys

/-- `std::sort(buffer_.begin(), buffer_.end())` with `operator<` as above.
`std::sort` promises some permutation sorted by that comparator; we realise
it as an insertion sort, which produces such a permutation (and the sorted
permutation is unique once the ids are distinct, which is the only case the
claims quantify over). -/
def sortRecs (l : List PRec) : List PRec := l.foldr insSorted []

/-- State of a `ProductIndex`: the in-memory build buffer, the open flag and
cached record count, and the index file (`none` while nothing has ever been
written to the path). -/
structure PIState where
  buffer : List PRec
  isOpen : Bool
  recordCount : Nat
  fileData : Option (Nat × List PRec)
deriving DecidableEq, Repr

/-- A fresh `ProductIndex` over a path with no index file yet. -/
def piInit : PIState := ⟨[], false, 0, none⟩

/-- `ProductIndex::addRecord`: append to the in-memory buffer. -/
def addRecordPI (id : List Nat) (k : Int) (st : PIState) : PIState :=
  { st with buffer := st.buffer ++ [mkPRec id k] }

/-- `ProductIndex::closeIndex`. -/
def closeIndexPI (st : PIState) : PIState :=
  { st with isOpen := false, recordCount := 0 }

/-- `ProductIndex::openIndex`: close, open the file, read the record count
from the header. -/
def openIndexPI (st : PIState) : Bool × PIState :=
  let st' := closeIndexPI st
  match st.fileData with
  | none => (false, st')
  | some (cnt, _) =>
    (true, { st' with isOpen := true, recordCount := cnt })

/-- `ProductIndex::buildIndex`: nothing buffered means immediate `false` with
no file touched; otherwise sort, write count-prefixed packed records, clear
the buffer and auto-open for reading. -/
def buildIndexPI (st : PIState) : Bool × PIState :=
  if st.buffer.isEmpty then (false, st)
  else
    let sorted := sortRecs st.buffer
    openIndexPI { st with fileData := some (sorted.length, sorted), buffer := [] }

/-- `ProductIndex::binarySearch`: classic half-interval search over the
records `left .. right - 1` of the on-file array, one record read per probe. -/
def binarySearchPI (target : List Nat) (arr : List PRec) (left right : Nat) :
    Option Int :=
  if h : left < right then
    let mid := left + (right - left) / 2
    let r := arr.getD mid default
    match cmpStr target r.productId with
    | Ordering.eq => some r.nodeKey
    | Ordering.lt => binarySearchPI target arr left mid
    | Ordering.gt => binarySearchPI target arr (mid + 1) right
  else none
termination_by right - left
decreasing_by all_goals omega

/-- `ProductIndex::lookup`: `false` when closed or empty, otherwise binary
search for the normalised id over records `0 .. recordCount_ - 1`. -/
def lookupPI (id : List Nat) (st : PIState) : Option Int :=
  if st.isOpen = false ∨ st.recordCount = 0 then none
  else
    match st.fileData with
    | none => none
    | some (_, arr) => binarySearchPI (truncId id) arr 0 st.recordCount

/-- `ProductIndex::containsRecord`. -/
def containsPI (id : List Nat) (st : PIState) : Bool :=
  (lookupPI id st).isSome

/-- A sequence of `addRecord` calls. -/
def addAllPI : List (List Nat × Int) → PIState → PIState
  | [], st => st
  | (id, k) :: rest, st => addAllPI rest (addRecordPI id k st)

/-! ## Basic facts about `cmpStr` and key normalisation -/

theorem cmpStr_eq_iff (a b : List Nat) : cmpStr a b = Ordering.eq ↔ a = b := by
  induction a generalizing b with
  | nil => cases b <;> simp [cmpStr]
  | cons x xs ih =>
    cases b with
    | nil => simp [cmpStr]
    | cons y ys =>
      simp only [cmpStr, List.cons.injEq]
      rcases Nat.lt_trichotomy x y with h | h | h
      · simp only [if_pos h]
        constructor
        · intro hc; cases hc
        · rintro ⟨h1, -⟩; omega
      · subst h
        simp only [if_neg (Nat.lt_irrefl x), ih]
        tauto
      · rw [if_neg (by omega), if_pos h]
        constructor
        · intro hc; cases hc
        · rintro ⟨h1, -⟩; omega

theorem cmpStr_self (a : List Nat) : cmpStr a a = Ordering.eq :=
  (cmpStr_eq_iff a a).2 rfl

theorem cmpStr_gt_iff (a b : List Nat) :
    cmpStr a b = Ordering.gt ↔ cmpStr b a = Ordering.lt := by
  induction a generalizing b with
  | nil => cases b <;> simp [cmpStr]
  | cons x xs ih =>
    cases b with
    | nil => simp [cmpStr]
    | cons y ys =>
      simp only [cmpStr]
      rcases Nat.lt_trichotomy x y with h | h | h
      · rw [if_pos h, if_neg (by omega : ¬ y < x), if_pos h]
        constructor <;> (intro hc; cases hc)
      · subst h
        simp only [if_neg (Nat.lt_irrefl x), ih]
      · rw [if_neg (by omega : ¬ x < y), if_pos h, if_pos h]
        exact ⟨fun _ => rfl, fun _ => rfl⟩

theorem cmpStr_total (a b : List Nat) :
    cmpStr a b = Ordering.lt ∨ cmpStr a b = Ordering.eq ∨
      cmpStr a b = Ordering.gt := by
  cases h : cmpStr a b <;> simp

theorem keyLt_trans {a b c : List Nat} (h1 : keyLt a b) (h2 : keyLt b c) :
    keyLt a c := by
  unfold keyLt at *
  induction a generalizing b c with
  | nil =>
    cases c with
    | nil =>
      cases b with
      | nil => exact h1
      | cons y ys => simp [cmpStr] at h2
    | cons z zs => simp [cmpStr]
  | cons x xs ih =>
    cases b with
    | nil => simp [cmpStr] at h1
    | cons y ys =>
      cases c with
      | nil => simp [cmpStr] at h2
      | cons z zs =>
        simp only [cmpStr] at h1 h2 ⊢
        rcases Nat.lt_trichotomy x y with hxy | hxy | hxy
        · rcases Nat.lt_trichotomy y z with hyz | hyz | hyz
          · rw [if_pos (by omega)]
          · subst hyz; rw [if_pos hxy]
          · rw [if_neg (by omega), if_pos hyz] at h2; cases h2
        · subst hxy
          rcases Nat.lt_trichotomy x z with hyz | hyz | hyz
          · rw [if_pos hyz]
          · subst hyz
            simp only [if_neg (Nat.lt_irrefl x)] at h1 h2 ⊢
            exact ih h1 h2
          · rw [if_neg (by omega), if_pos hyz] at h2; cases h2
        · rw [if_neg (by omega), if_pos hxy] at h1; cases h1

theorem keyLt_irrefl (a : List Nat) : ¬ keyLt a a := by
  unfold keyLt
  rw [cmpStr_self]
  intro h; cases h

theorem keyLt_ne {a b : List Nat} (h : keyLt a b) : a ≠ b := by
  intro he; subst he; exact keyLt_irrefl a h

theorem keyLt_of_not_lt_of_ne {a b : List Nat}
    (h1 : cmpStr a b ≠ Ordering.lt) (h2 : a ≠ b) : keyLt b a := by
  rcases cmpStr_total a b with h | h | h
  · exact absurd h h1
  · exact absurd ((cmpStr_eq_iff a b).1 h) h2
  · exact (cmpStr_gt_iff a b).1 h

theorem takeWhile_eq_self_of {p : Nat → Bool} {l : List Nat}
    (h : ∀ c ∈ l, p c = true) : l.takeWhile p = l := by
  induction l with
  | nil => rfl
  | cons x xs ih =>
    rw [List.takeWhile_cons, if_pos (h x (by simp))]
    rw [ih (fun c hc => h c (by simp [hc]))]

theorem truncKey_no_zero {K : Nat} {k : List Nat} :
    ∀ c ∈ truncKey K k, c ≠ 0 := by
  intro c hc
  have h1 : c ∈ k.takeWhile (fun c => c != 0) := List.mem_of_mem_take hc
  have := List.mem_takeWhile_imp h1
  simpa using this

theorem truncKey_length {K : Nat} {k : List Nat} :
    (truncKey K k).length ≤ K - 1 := by
  unfold truncKey
  simp [List.length_take]

theorem truncKey_idem (K : Nat) (k : List Nat) :
    truncKey K (truncKey K k) = truncKey K k := by
  unfold truncKey
  rw [takeWhile_eq_self_of (fun c hc => by
    have := @truncKey_no_zero K k c hc
    simpa using this)]
  rw [List.take_take, Nat.min_self]

theorem truncKey_of_no_zero {K : Nat} {k : List Nat} (h : ∀ c ∈ k, c ≠ 0) :
    truncKey K k = k.take (K - 1) := by
  unfold truncKey
  rw [takeWhile_eq_self_of (fun c hc => by simpa using h c hc)]

theorem truncKey_take (K : Nat) (k : List Nat) (h : ∀ c ∈ k, c ≠ 0) :
    truncKey K (k.take (K - 1)) = truncKey K k := by
  rw [truncKey_of_no_zero h,
    truncKey_of_no_zero (fun c hc => h c (List.mem_of_mem_take hc)),
    List.take_take, Nat.min_self]

/-! ## List helpers: `getT`, `insertAtL` -/

theorem getT_mem {bs : List BTr} {g : Nat} (h : g < bs.length) :
    getT bs g ∈ bs := by
  induction bs generalizing g with
  | nil => simp at h
  | cons b bs ih =>
    cases g with
    | zero => simp [getT]
    | succ j =>
      simp only [getT]
      exact List.mem_cons_of_mem _ (ih (by simpa using h))

theorem insertAtL_length {α : Type} (l : List α) (i : Nat) (a : α) :
    (insertAtL l i a).length = l.length + 1 := by
  unfold insertAtL
  simp [List.length_take, List.length_drop]
  omega

theorem mem_insertAtL {α : Type} {l : List α} {i : Nat} {a x : α}
    (h : x ∈ insertAtL l i a) : x = a ∨ x ∈ l := by
  unfold insertAtL at h
  simp only [List.mem_append, List.mem_cons] at h
  rcases h with h | h | h
  · exact Or.inr (List.mem_of_mem_take h)
  · exact Or.inl h
  · exact Or.inr (List.mem_of_mem_drop h)


theorem insertAtL_take {α : Type} (l : List α) (i m : Nat) (a : α)
    (him : i ≤ m) (hil : i ≤ l.length) :
    (insertAtL l i a).take (m + 1) = insertAtL (l.take m) i a := by
  unfold insertAtL
  rw [List.take_append_eq_append_take, List.take_take, List.length_take]
  rw [Nat.min_eq_left hil, Nat.min_eq_right (by omega : i ≤ m + 1)]
  have h1 : m + 1 - i = (m - i) + 1 := by omega
  rw [h1, List.take_succ_cons]
  rw [List.take_take, Nat.min_eq_left him, List.drop_take]

theorem insertAtL_drop {α : Type} (l : List α) (i m : Nat) (a : α)
    (him : i ≤ m) (hil : i ≤ l.length) :
    (insertAtL l i a).drop (m + 1) = l.drop m := by
  unfold insertAtL
  rw [List.drop_append_eq_append_drop, List.length_take, Nat.min_eq_left hil]
  rw [List.drop_eq_nil_of_le (by rw [List.length_take]; omega)]
  have h1 : m + 1 - i = (m - i) + 1 := by omega
  rw [h1, List.drop_succ_cons, List.drop_drop, List.nil_append]
  congr 1
  omega

theorem insertAtL_take_le {α : Type} (l : List α) (i m : Nat) (a : α)
    (hmi : m ≤ i) (hil : i ≤ l.length) :
    (insertAtL l i a).take m = l.take m := by
  unfold insertAtL
  rw [List.take_append_eq_append_take, List.length_take, Nat.min_eq_left hil]
  rw [Nat.sub_eq_zero_of_le hmi, List.take_zero, List.append_nil]
  rw [List.take_take, Nat.min_eq_left hmi]

theorem insertAtL_drop_le {α : Type} (l : List α) (i m : Nat) (a : α)
    (hmi : m ≤ i) (hil : i ≤ l.length) :
    (insertAtL l i a).drop m = insertAtL (l.drop m) (i - m) a := by
  unfold insertAtL
  rw [List.drop_append_eq_append_drop, List.length_take, Nat.min_eq_left hil]
  rw [Nat.sub_eq_zero_of_le hmi, List.drop_zero]
  rw [List.drop_take, List.drop_drop]
  have h2 : m + (i - m) = i := by omega
  rw [h2]

theorem insertAtL_cons {α : Type} (y : α) (l : List α) (j : Nat) (a : α) :
    insertAtL (y :: l) (j + 1) a = y :: insertAtL l j a := by
  unfold insertAtL
  rw [List.take_succ_cons, List.drop_succ_cons, List.cons_append]

theorem insertAtL_getD_lt {α : Type} (l : List α) (i j : Nat) (a d : α)
    (hj : j < i) (hil : i ≤ l.length) :
    (insertAtL l i a).getD j d = l.getD j d := by
  unfold insertAtL
  rw [List.getD_eq_getElem?_getD, List.getD_eq_getElem?_getD]
  rw [List.getElem?_append_left (by rw [List.length_take]; omega)]
  rw [List.getElem?_take_of_lt hj]

theorem getLastD_take {α : Type} (l : List α) (m : Nat) (d : α)
    (h : m + 1 ≤ l.length) :
    (l.take (m + 1)).getLastD d = l.getD m d := by
  rw [List.getLastD_eq_getLast?, List.getLast?_eq_getElem?]
  rw [List.length_take, Nat.min_eq_left h]
  rw [Nat.add_sub_cancel, List.getElem?_take_of_lt (Nat.lt_succ_self m)]
  rw [List.getD_eq_getElem?_getD]

theorem drop_eq_getD_cons {α : Type} {l : List α} {m : Nat} (d : α)
    (h : m < l.length) :
    l.drop m = l.getD m d :: l.drop (m + 1) := by
  rw [List.drop_eq_getElem_cons h, List.getD_eq_getElem l d h]

/-! ## Correctness of `searchNode` on a sorted node -/

theorem scanDown_le (sk : Key) (recs : List BRec) (l0 : Nat) :
    scanDown sk recs l0 ≤ l0 := by
  induction l0 with
  | zero => simp [scanDown]
  | succ l ih =>
    unfold scanDown
    split
    · omega
    · omega

theorem scanDown_gt (sk : Key) (recs : List BRec) (l0 : Nat) :
    ∀ j, scanDown sk recs l0 < j → j ≤ l0 →
      cmpStr sk ((recs.getD j default).key) = Ordering.lt := by
  induction l0 with
  | zero => intro j h1 h2; omega
  | succ l ih =>
    intro j h1 h2
    unfold scanDown at h1
    by_cases hc : cmpStr sk ((recs.getD (l + 1) default).key) = Ordering.lt
    · rw [if_pos hc] at h1
      rcases Nat.lt_or_ge j (l + 1) with hj | hj
      · exact ih j h1 (by omega)
      · have : j = l + 1 := by omega
        rw [this]; exact hc
    · rw [if_neg hc] at h1
      omega

theorem scanDown_stop (sk : Key) (recs : List BRec) (l0 : Nat) :
    scanDown sk recs l0 = 0 ∨
      cmpStr sk ((recs.getD (scanDown sk recs l0) default).key) ≠
        Ordering.lt := by
  induction l0 with
  | zero => left; simp [scanDown]
  | succ l ih =>
    unfold scanDown
    split
    · exact ih
    · right; assumption

theorem pairwise_getD {recs : List BRec} (hp : List.Pairwise recLt recs)
    {i j : Nat} (hij : i < j) (hj : j < recs.length) :
    keyLt ((recs.getD i default).key) ((recs.getD j default).key) := by
  rw [List.getD_eq_getElem recs default (by omega), List.getD_eq_getElem recs default hj]
  exact List.pairwise_iff_getElem.1 hp i j (by omega) hj hij

theorem searchNode_found {sk : Key} {recs : List BRec}
    (h : (searchNode sk recs).1 = true) :
    ∃ g : Nat, (searchNode sk recs).2 = (g : Int) ∧ g < recs.length ∧
      (recs.getD g default).key = sk := by
  match recs with
  | [] => simp [searchNode] at h
  | r0 :: rest =>
    by_cases hc : cmpStr sk r0.key = Ordering.lt
    · rw [searchNode, if_pos hc] at h
      simp at h
    · rw [searchNode] at h ⊢
      rw [if_neg hc] at h ⊢
      refine ⟨scanDown sk (r0 :: rest) ((r0 :: rest).length - 1), rfl, ?_, ?_⟩
      · have hle := scanDown_le sk (r0 :: rest) ((r0 :: rest).length - 1)
        simp only [List.length_cons] at *
        omega
      · have hb : decide (cmpStr sk (((r0 :: rest).getD
            (scanDown sk (r0 :: rest) ((r0 :: rest).length - 1)) default).key) =
            Ordering.eq) = true := h
        exact ((cmpStr_eq_iff _ _).1 (of_decide_eq_true hb)).symm

theorem searchNode_notFound {sk : Key} {recs : List BRec}
    (hp : List.Pairwise recLt recs)
    (h : (searchNode sk recs).1 = false) :
    ∃ g : Nat, (searchNode sk recs).2 = (g : Int) - 1 ∧ g ≤ recs.length ∧
      (∀ i, i < g → keyLt ((recs.getD i default).key) sk) ∧
      (∀ i, g ≤ i → i < recs.length → keyLt sk ((recs.getD i default).key)) := by
  match recs with
  | [] =>
    refine ⟨0, by simp [searchNode], by simp, ?_, ?_⟩
    · intro i hi; omega
    · intro i _ hi; simp at hi
  | r0 :: rest =>
    by_cases hc : cmpStr sk r0.key = Ordering.lt
    · rw [searchNode, if_pos hc]
      refine ⟨0, by simp, by simp, ?_, ?_⟩
      · intro i hi; omega
      · intro i _ hi
        rcases Nat.eq_zero_or_pos i with hi0 | hi0
        · subst hi0; exact hc
        · exact keyLt_trans hc (pairwise_getD hp hi0 hi)
    · rw [searchNode] at h ⊢
      rw [if_neg hc] at h ⊢
      set l := scanDown sk (r0 :: rest) ((r0 :: rest).length - 1) with hl
      have hle : l ≤ (r0 :: rest).length - 1 := scanDown_le sk _ _
      have hne : sk ≠ ((r0 :: rest).getD l default).key := by
        intro he
        have hce : cmpStr sk (((r0 :: rest).getD l default).key) = Ordering.eq :=
          (cmpStr_eq_iff _ _).2 he
        rw [hce] at h
        simp at h
      have hnl : cmpStr sk (((r0 :: rest).getD l default).key) ≠ Ordering.lt := by
        rcases scanDown_stop sk (r0 :: rest) ((r0 :: rest).length - 1) with h0 | hstop
        · rw [← hl] at h0
          rw [h0]
          simpa using hc
        · rwa [← hl] at hstop
      have hgl : keyLt (((r0 :: rest).getD l default).key) sk :=
        keyLt_of_not_lt_of_ne hnl hne
      refine ⟨l + 1, by simp, by simp only [List.length_cons] at *; omega, ?_, ?_⟩
      · intro i hi
        rcases Nat.lt_or_ge i l with hil | hil
        · exact keyLt_trans (pairwise_getD hp hil (by simp only [List.length_cons] at *; omega)) hgl
        · have : i = l := by omega
          rw [this]; exact hgl
      · intro i hgi hlen
        exact scanDown_gt sk (r0 :: rest) ((r0 :: rest).length - 1) i
          (by omega) (by simp only [List.length_cons] at *; omega)

/-! ## In-order decomposition machinery -/

theorem interR_cons_join (r : BRec) (rs : List BRec) (ss : List (List BRec))
    (h : ss ≠ []) : interR (r :: rs) ss = r :: joinInter ss rs := by
  cases ss with
  | nil => exact absurd rfl h
  | cons s ss' => rfl

theorem interR_head (x : BRec) (xs : List BRec) (ss : List (List BRec)) :
    ∃ cb, interR (x :: xs) ss = x :: cb := by
  cases ss with
  | nil => exact ⟨[], rfl⟩
  | cons s ss' => exact ⟨s ++ interR xs ss', rfl⟩

theorem insertAtL_ne_nil {α : Type} (l : List α) (i : Nat) (a : α) :
    insertAtL l i a ≠ [] := by
  intro h
  have := insertAtL_length l i a
  rw [h] at this
  simp at this

theorem inorder_nil : inorder BTr.nil = [] := by
  rw [inorder]

theorem inorder_node (recs : List BRec) (brs : List BTr) :
    inorder (BTr.node recs brs) = joinInter (brs.map inorder) recs := by
  rw [inorder, List.attach_map_coe]

theorem sublist_interR (rs : List BRec) (ss : List (List BRec))
    (h : rs.length ≤ ss.length + 1) : rs.Sublist (interR rs ss) := by
  induction rs generalizing ss with
  | nil => simp [interR]
  | cons r rs ih =>
    cases ss with
    | nil =>
      simp only [List.length_cons, List.length_nil] at h
      have h0 : rs = [] := List.eq_nil_of_length_eq_zero (by omega)
      subst h0
      simp [interR]
    | cons s ss' =>
      show (r :: rs).Sublist (r :: (s ++ interR rs ss'))
      exact List.Sublist.cons₂ r
        (List.sublist_append_of_sublist_right
          (ih ss' (by simpa using Nat.le_of_succ_le_succ h)))

theorem recs_sublist_inorder (recs : List BRec) (brs : List BTr)
    (h : brs.length = recs.length + 1) :
    recs.Sublist (inorder (BTr.node recs brs)) := by
  rw [inorder_node]
  cases brs with
  | nil => simp at h
  | cons b bs =>
    show recs.Sublist (inorder b ++ interR recs (bs.map inorder))
    refine List.sublist_append_of_sublist_right (sublist_interR recs _ ?_)
    simp only [List.length_map]
    simp only [List.length_cons] at h
    omega

theorem inorder_decomp (g : Nat) (recs : List BRec) (brs : List BTr)
    (hg : g ≤ recs.length) (hlen : brs.length = recs.length + 1) :
    joinInter (brs.map inorder) recs =
      ctxA g recs brs ++ inorder (getT brs g) ++ ctxB g recs brs := by
  induction g generalizing recs brs with
  | zero =>
    cases brs with
    | nil => simp at hlen
    | cons b bs => simp [joinInter, ctxA, ctxB, getT]
  | succ g ih =>
    cases recs with
    | nil => simp at hg
    | cons r rs =>
      cases brs with
      | nil => simp at hlen
      | cons b bs =>
        have hbs : bs.length = rs.length + 1 := by
          simp only [List.length_cons] at hlen; omega
        have hmapne : bs.map inorder ≠ [] := by
          intro h0
          rw [List.map_eq_nil_iff] at h0
          rw [h0] at hbs; simp at hbs
        show inorder b ++ interR (r :: rs) (bs.map inorder) = _
        rw [interR_cons_join r rs _ hmapne]
        rw [ih rs bs (by simpa using hg) hbs]
        show _ = (inorder (getT (b :: bs) 0) ++
          (r :: rs).headD default :: ctxA g (r :: rs).tail (b :: bs).tail) ++
          inorder (getT bs g) ++ ctxB (g + 1) (r :: rs) (b :: bs)
        simp only [getT, List.headD_cons, List.tail_cons]
        have hB : ctxB (g + 1) (r :: rs) (b :: bs) = ctxB g rs bs := by
          simp [ctxB]
        rw [hB]
        simp [List.append_assoc]

theorem inorder_decomp_set (g : Nat) (recs : List BRec) (brs : List BTr)
    (b' : BTr) (hg : g ≤ recs.length) (hlen : brs.length = recs.length + 1) :
    joinInter ((brs.set g b').map inorder) recs =
      ctxA g recs brs ++ inorder b' ++ ctxB g recs brs := by
  induction g generalizing recs brs with
  | zero =>
    cases brs with
    | nil => simp at hlen
    | cons b bs => simp [joinInter, ctxA, ctxB]
  | succ g ih =>
    cases recs with
    | nil => simp at hg
    | cons r rs =>
      cases brs with
      | nil => simp at hlen
      | cons b bs =>
        have hbs : bs.length = rs.length + 1 := by
          simp only [List.length_cons] at hlen; omega
        have hmapne : (bs.set g b').map inorder ≠ [] := by
          intro h0
          rw [List.map_eq_nil_iff] at h0
          have := congrArg List.length h0
          simp [hbs] at this
        show inorder b ++ interR (r :: rs) ((bs.set g b').map inorder) = _
        rw [interR_cons_join r rs _ hmapne]
        rw [ih rs bs (by simpa using hg) hbs]
        show _ = (inorder (getT (b :: bs) 0) ++
          (r :: rs).headD default :: ctxA g (r :: rs).tail (b :: bs).tail) ++
          inorder b' ++ ctxB (g + 1) (r :: rs) (b :: bs)
        simp only [getT, List.headD_cons, List.tail_cons]
        have hB : ctxB (g + 1) (r :: rs) (b :: bs) = ctxB g rs bs := by
          simp [ctxB]
        rw [hB]
        simp [List.append_assoc]

theorem inorder_decomp_insert (g : Nat) (recs : List BRec) (brs : List BTr)
    (b' rt : BTr) (nr : BRec)
    (hg : g ≤ recs.length) (hlen : brs.length = recs.length + 1) :
    joinInter ((insertAtL (brs.set g b') (g + 1) rt).map inorder)
        (insertAtL recs g nr) =
      ctxA g recs brs ++ inorder b' ++ nr :: inorder rt ++ ctxB g recs brs := by
  induction g generalizing recs brs with
  | zero =>
    cases brs with
    | nil => simp at hlen
    | cons b bs =>
      show joinInter ((insertAtL (b' :: bs) 1 rt).map inorder)
          (insertAtL recs 0 nr) = _
      have h1 : insertAtL (b' :: bs) 1 rt = b' :: rt :: bs := by
        simp [insertAtL]
      have h2 : insertAtL recs 0 nr = nr :: recs := by
        simp [insertAtL]
      rw [h1, h2]
      simp [joinInter, interR, ctxA, ctxB]
  | succ g ih =>
    cases recs with
    | nil => simp at hg
    | cons r rs =>
      cases brs with
      | nil => simp at hlen
      | cons b bs =>
        have hbs : bs.length = rs.length + 1 := by
          simp only [List.length_cons] at hlen; omega
        show joinInter ((insertAtL (b :: bs.set g b') (g + 2) rt).map inorder)
          (insertAtL (r :: rs) (g + 1) nr) = _
        rw [insertAtL_cons b (bs.set g b') (g + 1) rt,
          insertAtL_cons r rs g nr]
        have hmapne : (insertAtL (bs.set g b') (g + 1) rt).map inorder ≠ [] := by
          intro h0
          rw [List.map_eq_nil_iff] at h0
          exact insertAtL_ne_nil _ _ _ h0
        show inorder b ++ interR (r :: insertAtL rs g nr)
          ((insertAtL (bs.set g b') (g + 1) rt).map inorder) = _
        rw [interR_cons_join _ _ _ hmapne]
        rw [ih rs bs (by simpa using hg) hbs]
        show _ = (inorder (getT (b :: bs) 0) ++
          (r :: rs).headD default :: ctxA g (r :: rs).tail (b :: bs).tail) ++
          inorder b' ++ nr :: inorder rt ++ ctxB (g + 1) (r :: rs) (b :: bs)
        simp only [getT, List.headD_cons, List.tail_cons]
        have hB : ctxB (g + 1) (r :: rs) (b :: bs) = ctxB g rs bs := by
          simp [ctxB]
        rw [hB]
        simp [List.append_assoc]

theorem joinInter_cut (m : Nat) (rs : List BRec) (ss : List (List BRec))
    (hm : m < rs.length) (hlen : ss.length = rs.length + 1) :
    joinInter ss rs =
      joinInter (ss.take (m + 1)) (rs.take m) ++ rs.getD m default ::
        joinInter (ss.drop (m + 1)) (rs.drop (m + 1)) := by
  induction m generalizing rs ss with
  | zero =>
    cases rs with
    | nil => simp at hm
    | cons r rs' =>
      cases ss with
      | nil => simp at hlen
      | cons s ss' =>
        have hss : ss' ≠ [] := by
          intro h0
          rw [h0] at hlen; simp at hlen
        show s ++ interR (r :: rs') ss' = _
        rw [interR_cons_join r rs' ss' hss]
        simp [joinInter, interR]
  | succ m ih =>
    cases rs with
    | nil => simp at hm
    | cons r rs' =>
      cases ss with
      | nil => simp at hlen
      | cons s ss' =>
        have hlen' : ss'.length = rs'.length + 1 := by
          simp only [List.length_cons] at hlen; omega
        have hm' : m < rs'.length := by
          simp only [List.length_cons] at hm; omega
        have hss : ss' ≠ [] := by
          intro h0
          rw [h0] at hlen'; simp at hlen'
        have htkne : ss'.take (m + 1) ≠ [] := by
          cases ss' with
          | nil => exact absurd rfl hss
          | cons a as => simp
        show s ++ interR (r :: rs') ss' = _
        rw [interR_cons_join r rs' ss' hss, ih rs' ss' hm' hlen']
        show _ = joinInter (s :: ss'.take (m + 1)) (r :: rs'.take m) ++ _
        rw [joinInter]
        rw [interR_cons_join r (rs'.take m) (ss'.take (m + 1)) htkne]
        simp [joinInter, List.append_assoc]

theorem ctxA_last (g : Nat) (recs : List BRec) (brs : List BTr)
    (hg1 : 1 ≤ g) (hg : g ≤ recs.length) (hlen : brs.length = recs.length + 1) :
    ∃ ca, ctxA g recs brs = ca ++ [recs.getD (g - 1) default] := by
  induction g generalizing recs brs with
  | zero => omega
  | succ g ih =>
    cases recs with
    | nil => simp at hg
    | cons r rs =>
      cases brs with
      | nil => simp at hlen
      | cons b bs =>
        have hbs : bs.length = rs.length + 1 := by
          simp only [List.length_cons] at hlen; omega
        show ∃ ca, inorder (getT (b :: bs) 0) ++
          (r :: rs).headD default :: ctxA g (r :: rs).tail (b :: bs).tail =
          ca ++ [(r :: rs).getD (g + 1 - 1) default]
        simp only [getT, List.headD_cons, List.tail_cons, Nat.add_sub_cancel]
        rcases Nat.eq_zero_or_pos g with hg0 | hg0
        · subst hg0
          exact ⟨inorder b, by simp [ctxA]⟩
        · rcases ih rs bs hg0 (by simpa using hg) hbs with ⟨ca', hca⟩
          refine ⟨inorder b ++ r :: ca', ?_⟩
          rw [hca]
          have hgd : (r :: rs).getD g default = rs.getD (g - 1) default := by
            cases g with
            | zero => omega
            | succ g' => simp
          rw [hgd]
          simp

theorem ctxB_head (g : Nat) (recs : List BRec) (brs : List BTr)
    (hg : g < recs.length) :
    ∃ cb, ctxB g recs brs = recs.getD g default :: cb := by
  unfold ctxB
  rw [drop_eq_getD_cons default hg]
  exact interR_head _ _ _

theorem ctxB_end (recs : List BRec) (brs : List BTr) :
    ctxB recs.length recs brs = [] := by
  unfold ctxB
  rw [List.drop_of_length_le (Nat.le_refl _)]
  rfl

/-- Separation at one node: when node-local search reports the gap before
branch `g`, everything left of that branch is strictly below the target and
everything right of it is strictly above, provided the node's in-order
contents are sorted. -/
theorem sep_of_gap {recs : List BRec} {brs : List BTr} {g : Nat} {sk : Key}
    (hg : g ≤ recs.length) (hlen : brs.length = recs.length + 1)
    (hs : List.Pairwise recLt
      (ctxA g recs brs ++ inorder (getT brs g) ++ ctxB g recs brs))
    (hlt : ∀ i, i < g → keyLt ((recs.getD i default).key) sk)
    (hgt : ∀ i, g ≤ i → i < recs.length → keyLt sk ((recs.getD i default).key)) :
    (∀ x ∈ ctxA g recs brs, keyLt x.key sk) ∧
    (∀ x ∈ ctxB g recs brs, keyLt sk x.key) := by
  have hsA : List.Pairwise recLt (ctxA g recs brs) :=
    ((List.pairwise_append.1 ((List.pairwise_append.1 hs).1)).1)
  have hsB : List.Pairwise recLt (ctxB g recs brs) :=
    (List.pairwise_append.1 hs).2.1
  constructor
  · intro x hx
    rcases Nat.eq_zero_or_pos g with hg0 | hg0
    · subst hg0
      simp [ctxA] at hx
    · rcases ctxA_last g recs brs hg0 hg hlen with ⟨ca, hca⟩
      have hlast : keyLt ((recs.getD (g - 1) default).key) sk :=
        hlt (g - 1) (by omega)
      rw [hca] at hx
      rcases List.mem_append.1 hx with hx | hx
      · have hcross := (List.pairwise_append.1 (hca ▸ hsA)).2.2
        have : recLt x (recs.getD (g - 1) default) :=
          hcross x hx _ (by simp)
        exact keyLt_trans this hlast
      · have : x = recs.getD (g - 1) default := by simpa using hx
        rw [this]
        exact hlast
  · intro x hx
    rcases Nat.lt_or_ge g recs.length with hglt | hgge
    · rcases ctxB_head g recs brs hglt with ⟨cb, hcb⟩
      have hhead : keyLt sk ((recs.getD g default).key) :=
        hgt g (Nat.le_refl g) hglt
      rw [hcb] at hx
      rcases List.mem_cons.1 hx with hx | hx
      · rw [hx]
        exact hhead
      · have hpb := hcb ▸ hsB
        have : recLt (recs.getD g default) x :=
          (List.pairwise_cons.1 hpb).1 x hx
        exact keyLt_trans hhead this
    · have : g = recs.length := by omega
      subst this
      rw [ctxB_end] at hx
      simp at hx

theorem dropLast_take {α : Type} (l : List α) (m : Nat) (h : m + 1 ≤ l.length) :
    (l.take (m + 1)).dropLast = l.take m := by
  rw [List.dropLast_eq_take, List.length_take, Nat.min_eq_left h,
    Nat.add_sub_cancel, List.take_take, Nat.min_eq_left (Nat.le_succ m)]

/-- Canonical form of `BTree::split`: with `count = MaxKeys` and the incoming
record at gap `g` (so `location = g - 1`), the result is exactly the
`MinKeys`-cut of the virtual overfull node obtained by inserting the record
at gap `g` and its right branch after the branch at slot `g`: the promoted
record is entry `MinKeys` of that virtual node, the left node keeps entries
`0 .. MinKeys - 1` (with branches `0 .. MinKeys`), and the new right node
receives entries `MinKeys + 1 ..` (with the remaining branches). -/
theorem splitNode_eq (minK maxK : Nat) (cr : BRec) (crt : BTr)
    (recs : List BRec) (brs : List BTr) (g : Nat)
    (hrl : recs.length = maxK) (hbl : brs.length = maxK + 1)
    (hg : g ≤ maxK) (hmk : minK + 1 ≤ maxK) :
    splitNode minK cr crt recs brs ((g : Int) - 1) =
      ((insertAtL recs g cr).getD minK default,
       BTr.node ((insertAtL recs g cr).take minK)
         ((insertAtL brs (g + 1) crt).take (minK + 1)),
       BTr.node ((insertAtL recs g cr).drop (minK + 1))
         ((insertAtL brs (g + 1) crt).drop (minK + 1))) := by
  have hilr : (insertAtL recs g cr).length = maxK + 1 := by
    rw [insertAtL_length, hrl]
  have hilb : (insertAtL brs (g + 1) crt).length = maxK + 2 := by
    rw [insertAtL_length, hbl]
  by_cases hc : ((g : Int) - 1) < (minK : Int)
  · have hgm : g ≤ minK := by omega
    have hglen : g ≤ recs.length := by omega
    have hglenb : g + 1 ≤ brs.length := by omega
    have htn : ((g : Int) - 1 + 1).toNat = g := by omega
    simp only [splitNode, if_pos hc, addRecord, htn]
    refine Prod.ext ?_ (Prod.ext ?_ ?_) <;> simp only
    · rw [← insertAtL_take recs g minK cr hgm hglen]
      rw [getLastD_take _ minK default (by omega)]
    · rw [← insertAtL_take recs g minK cr hgm hglen,
        ← insertAtL_take brs (g + 1) (minK + 1) crt (by omega) hglenb]
      rw [dropLast_take _ minK (by omega), dropLast_take _ (minK + 1) (by omega)]
    · rw [List.tail_cons]
      rw [← insertAtL_take brs (g + 1) (minK + 1) crt (by omega) hglenb]
      rw [getLastD_take _ (minK + 1) BTr.nil (by omega)]
      rw [@drop_eq_getD_cons BTr (insertAtL brs (g + 1) crt) (minK + 1)
        BTr.nil (by omega)]
      rw [insertAtL_drop recs g minK cr hgm hglen]
      rw [insertAtL_drop brs (g + 1) (minK + 1) crt (by omega) hglenb]
  · have hgm : minK + 1 ≤ g := by omega
    have hglen : g ≤ recs.length := by omega
    have hglenb : g + 1 ≤ brs.length := by omega
    have htn : ((g : Int) - 1 - ((minK : Nat) + 1 : Nat) + 1).toNat =
        g - minK - 1 := by push_cast; omega
    simp only [splitNode, if_neg hc, addRecord, htn]
    refine Prod.ext ?_ (Prod.ext ?_ ?_) <;> simp only
    · rw [getLastD_take recs minK default (by omega)]
      rw [insertAtL_getD_lt recs g minK cr default (by omega) hglen]
    · rw [dropLast_take recs minK (by omega),
        dropLast_take brs (minK + 1) (by omega)]
      rw [insertAtL_take_le recs g minK cr (by omega) hglen,
        insertAtL_take_le brs (g + 1) (minK + 1) crt (by omega) hglenb]
    · rw [insertAtL_cons, List.tail_cons]
      rw [getLastD_take brs (minK + 1) BTr.nil (by omega)]
      rw [insertAtL_drop_le recs g (minK + 1) cr hgm hglen]
      rw [insertAtL_drop_le brs (g + 1) (minK + 1) crt (by omega) hglenb]
      rw [@drop_eq_getD_cons BTr brs (minK + 1) BTr.nil (by omega)]
      have h2 : g + 1 - (minK + 1) = g - minK - 1 + 1 := by omega
      rw [h2, insertAtL_cons]
      have h3 : g - (minK + 1) = g - minK - 1 := by omega
      rw [h3]

/-! ## Auxiliary facts for the main insertion lemma -/

theorem balGe_of_mem_set {minK maxK h : Nat} {brs : List BTr} {g : Nat}
    {c' : BTr} (hsub : ∀ b ∈ brs, BalGe minK maxK minK h b)
    (hc' : BalGe minK maxK minK h c') :
    ∀ b ∈ brs.set g c', BalGe minK maxK minK h b := by
  intro b hb
  rcases List.mem_or_eq_of_mem_set hb with hb | hb
  · exact hsub b hb
  · rw [hb]; exact hc'

theorem balGe_of_mem_insertAtL {minK maxK h : Nat} {l : List BTr} {i : Nat}
    {a : BTr} (hsub : ∀ b ∈ l, BalGe minK maxK minK h b)
    (ha : BalGe minK maxK minK h a) :
    ∀ b ∈ insertAtL l i a, BalGe minK maxK minK h b := by
  intro b hb
  rcases mem_insertAtL hb with hb | hb
  · rw [hb]; exact ha
  · exact hsub b hb

theorem mem_inorder_of_child {recs : List BRec} {brs : List BTr} {g : Nat}
    {x : BRec} (hg : g ≤ recs.length) (hlen : brs.length = recs.length + 1)
    (hx : x ∈ inorder (getT brs g)) : x ∈ inorder (BTr.node recs brs) := by
  rw [inorder_node, inorder_decomp g recs brs hg hlen]
  simp [hx]

theorem getD_mem_rec {recs : List BRec} {g : Nat} (hg : g < recs.length) :
    recs.getD g default ∈ recs := by
  rw [List.getD_eq_getElem recs default hg]
  exact List.getElem_mem hg

/-- The central lemma about `BTree::pushDown`, by induction over the balance
derivation of the subtree.  For a balanced, sorted subtree it says: the
descent raises `DuplicateKey` exactly when the key is already present; on a
fresh key the in-order contents split as `l1 ++ l2` around the insertion
point, and `pushDown` either returns an updated subtree of the same height
whose contents are `l1 ++ r :: l2` (`moveUp = false`), or a split pair whose
concatenation through the promoted record equals `l1 ++ r :: l2`, both
halves balanced non-root nodes of the same height (`moveUp = true`). -/
theorem pushDown_spec {minK maxK : Nat} (hm1 : 1 ≤ minK)
    (hm2 : 2 * minK ≤ maxK) (r : BRec) {lo h : Nat} {t : BTr}
    (hb : BalGe minK maxK lo h t) :
    List.Pairwise recLt (inorder t) →
    ((∃ x ∈ inorder t, x.key = r.key) →
      pushDown minK maxK r t = Except.error BErr.duplicateKey) ∧
    ((∀ x ∈ inorder t, x.key ≠ r.key) →
      ∃ l1 l2, inorder t = l1 ++ l2 ∧
        (∀ x ∈ l1, keyLt x.key r.key) ∧ (∀ x ∈ l2, keyLt r.key x.key) ∧
        ((∃ t', pushDown minK maxK r t = Except.ok (t', none) ∧
            inorder t' = l1 ++ r :: l2 ∧ BalGe minK maxK lo h t') ∨
         (∃ t' nr rt, pushDown minK maxK r t =
              Except.ok (t', some (nr, rt)) ∧
            inorder t' ++ nr :: inorder rt = l1 ++ r :: l2 ∧
            BalGe minK maxK minK h t' ∧ BalGe minK maxK minK h rt))) := by
  induction hb with
  | nil lo =>
    intro _
    constructor
    · rintro ⟨x, hx, -⟩
      rw [inorder_nil] at hx
      simp at hx
    · intro _
      refine ⟨[], [], by rw [inorder_nil]; rfl, by simp, by simp, Or.inr
        ⟨BTr.nil, r, BTr.nil, ?_, ?_, BalGe.nil minK, BalGe.nil minK⟩⟩
      · rw [pushDown]
      · rw [inorder_nil]
  | node lo h recs brs hlo hhi hlen hsub ih =>
    intro hs
    have hrecs_sorted : List.Pairwise recLt recs :=
      List.Pairwise.sublist (recs_sublist_inorder recs brs hlen) hs
    cases hf : (searchNode r.key recs).1 with
    | true =>
      obtain ⟨g, hloc, hglt, hkey⟩ := searchNode_found hf
      constructor
      · intro _
        rw [pushDown]
        simp only [hf]
        rfl
      · intro hno
        exfalso
        exact hno (recs.getD g default)
          ((recs_sublist_inorder recs brs hlen).subset (getD_mem_rec hglt))
          hkey
    | false =>
      obtain ⟨g, hloc, hgle, hlt, hgt⟩ := searchNode_notFound hrecs_sorted hf
      have hgnat : ((searchNode r.key recs).2 + 1).toNat = g := by
        rw [hloc]; omega
      have hchild_mem : getT brs g ∈ brs := getT_mem (by omega)
      have hchild_bal := hsub (getT brs g) hchild_mem
      have hdec : inorder (BTr.node recs brs) =
          ctxA g recs brs ++ inorder (getT brs g) ++ ctxB g recs brs := by
        rw [inorder_node]
        exact inorder_decomp g recs brs hgle hlen
      have hs' : List.Pairwise recLt
          (ctxA g recs brs ++ inorder (getT brs g) ++ ctxB g recs brs) :=
        hdec ▸ hs
      have hchild_sorted : List.Pairwise recLt (inorder (getT brs g)) := by
        have hsub1 : (inorder (getT brs g)).Sublist
            (ctxA g recs brs ++ inorder (getT brs g) ++ ctxB g recs brs) := by
          rw [List.append_assoc]
          exact (List.sublist_append_left _ _).trans
            (List.sublist_append_right _ _)
        exact List.Pairwise.sublist hsub1 hs'
      have hsep := sep_of_gap hgle hlen hs' hlt hgt
      have hih := ih (getT brs g) hchild_mem hchild_sorted
      constructor
      · rintro ⟨x, hx, hxkey⟩
        have hxin : x ∈ inorder (getT brs g) := by
          rw [hdec] at hx
          rcases List.mem_append.1 hx with hx | hx
          · rcases List.mem_append.1 hx with hx | hx
            · exfalso
              have := hsep.1 x hx
              rw [hxkey] at this
              exact keyLt_irrefl _ this
            · exact hx
          · exfalso
            have := hsep.2 x hx
            rw [hxkey] at this
            exact keyLt_irrefl _ this
        have herr := hih.1 ⟨x, hxin, hxkey⟩
        rw [pushDown]
        simp only [hf, hgnat, herr]
        rfl
      · intro hno
        have hno' : ∀ x ∈ inorder (getT brs g), x.key ≠ r.key := fun x hx =>
          hno x (mem_inorder_of_child hgle hlen hx)
        obtain ⟨l1', l2', hin_child, hl1lt, hl2gt, hcase⟩ := hih.2 hno'
        refine ⟨ctxA g recs brs ++ l1', l2' ++ ctxB g recs brs, ?_, ?_, ?_, ?_⟩
        · rw [hdec, hin_child]
          simp [List.append_assoc]
        · intro x hx
          rcases List.mem_append.1 hx with hx | hx
          · exact hsep.1 x hx
          · exact hl1lt x hx
        · intro x hx
          rcases List.mem_append.1 hx with hx | hx
          · exact hl2gt x hx
          · exact hsep.2 x hx
        · rcases hcase with ⟨c', hpd, hcin, hcbal⟩ |
            ⟨c', nr, rt, hpd, hsplitin, hcbal, hrtbal⟩
          · left
            refine ⟨BTr.node recs (brs.set g c'), ?_, ?_, ?_⟩
            · rw [pushDown]
              simp only [hf, hgnat, hpd]
              rfl
            · rw [inorder_node, inorder_decomp_set g recs brs c' hgle hlen,
                hcin]
              simp [List.append_assoc]
            · exact BalGe.node lo h recs (brs.set g c') hlo hhi
                (by rw [List.length_set]; exact hlen)
                (balGe_of_mem_set hsub hcbal)
          · have happ : inorder c' ++ (nr :: (inorder rt ++ ctxB g recs brs)) =
                l1' ++ (r :: (l2' ++ ctxB g recs brs)) := by
              have h0 := congrArg (fun l => l ++ ctxB g recs brs) hsplitin
              simpa [List.append_assoc] using h0
            by_cases hroom : recs.length < maxK
            · left
              refine ⟨BTr.node (insertAtL recs g nr)
                (insertAtL (brs.set g c') (g + 1) rt), ?_, ?_, ?_⟩
              · rw [pushDown]
                simp only [hf, hgnat, hpd, if_pos hroom, addRecord]
                rfl
              · rw [inorder_node,
                  inorder_decomp_insert g recs brs c' rt nr hgle hlen]
                simp only [List.append_assoc, List.cons_append]
                rw [happ]
              · refine BalGe.node lo h _ _ ?_ ?_ ?_ ?_
                · rw [insertAtL_length]; omega
                · rw [insertAtL_length]; omega
                · rw [insertAtL_length, insertAtL_length, List.length_set,
                    hlen]
                · exact balGe_of_mem_insertAtL
                    (balGe_of_mem_set hsub hcbal) hrtbal
            · right
              have hfull : recs.length = maxK := by omega
              have hXlen : (brs.set g c').length = maxK + 1 := by
                rw [List.length_set, hlen, hfull]
              have hspl := splitNode_eq minK maxK nr rt recs (brs.set g c') g
                hfull hXlen (by omega) (by omega)
              have hcut := joinInter_cut minK (insertAtL recs g nr)
                ((insertAtL (brs.set g c') (g + 1) rt).map inorder)
                (by rw [insertAtL_length]; omega)
                (by rw [List.length_map, insertAtL_length, insertAtL_length,
                    List.length_set, hlen, hfull])
              refine ⟨BTr.node ((insertAtL recs g nr).take minK)
                  ((insertAtL (brs.set g c') (g + 1) rt).take (minK + 1)),
                (insertAtL recs g nr).getD minK default,
                BTr.node ((insertAtL recs g nr).drop (minK + 1))
                  ((insertAtL (brs.set g c') (g + 1) rt).drop (minK + 1)),
                ?_, ?_, ?_, ?_⟩
              · rw [pushDown]
                simp only [hf, hgnat, hpd, if_neg hroom]
                rw [hloc, hspl]
                rfl
              · rw [inorder_node, inorder_node, List.map_take, List.map_drop]
                rw [← hcut]
                rw [inorder_decomp_insert g recs brs c' rt nr hgle hlen]
                simp only [List.append_assoc, List.cons_append]
                rw [happ]
              · refine BalGe.node minK h _ _ ?_ ?_ ?_ ?_
                · rw [List.length_take, insertAtL_length, hfull]; omega
                · rw [List.length_take, insertAtL_length, hfull]; omega
                · rw [List.length_take, List.length_take, insertAtL_length,
                    insertAtL_length, List.length_set, hlen, hfull]
                  omega
                · intro b hb
                  exact balGe_of_mem_insertAtL
                    (balGe_of_mem_set hsub hcbal) hrtbal b
                    (List.mem_of_mem_take hb)
              · refine BalGe.node minK h _ _ ?_ ?_ ?_ ?_
                · rw [List.length_drop, insertAtL_length, hfull]; omega
                · rw [List.length_drop, insertAtL_length, hfull]; omega
                · rw [List.length_drop, List.length_drop, insertAtL_length,
                    insertAtL_length, List.length_set, hlen, hfull]
                  omega
                · intro b hb
                  exact balGe_of_mem_insertAtL
                    (balGe_of_mem_set hsub hcbal) hrtbal b
                    (List.mem_of_mem_drop hb)

/-! ## Correctness of the lookup walk -/

theorem rec_unique_of_key {l : List BRec} (hp : List.Pairwise recLt l)
    {x y : BRec} (hx : x ∈ l) (hy : y ∈ l) (hk : x.key = y.key) : x = y := by
  obtain ⟨i, hi, hxi⟩ := List.getElem_of_mem hx
  obtain ⟨j, hj, hyj⟩ := List.getElem_of_mem hy
  have hpg := List.pairwise_iff_getElem.1 hp
  rcases Nat.lt_trichotomy i j with hij | hij | hij
  · exfalso
    have h2 : keyLt x.key y.key := by
      have := hpg i j hi hj hij
      rw [hxi, hyj] at this
      exact this
    rw [hk] at h2
    exact keyLt_irrefl _ h2
  · subst hij
    rw [← hxi, ← hyj]
  · exfalso
    have h2 : keyLt y.key x.key := by
      have := hpg j i hj hi hij
      rw [hxi, hyj] at this
      exact this
    rw [← hk] at h2
    exact keyLt_irrefl _ h2

theorem retrieveLoop_spec {minK maxK : Nat} {lo h : Nat} {t : BTr}
    (hb : BalGe minK maxK lo h t) (sk : Key) :
    List.Pairwise recLt (inorder t) →
    (sk ∉ (inorder t).map BRec.key → retrieveLoop sk t = none) ∧
    (∀ x ∈ inorder t, x.key = sk → retrieveLoop sk t = some x.data) := by
  induction hb with
  | nil lo =>
    intro _
    constructor
    · intro _
      rw [retrieveLoop]
    · intro x hx
      rw [inorder_nil] at hx
      simp at hx
  | node lo h recs brs hlo hhi hlen hsub ih =>
    intro hs
    have hrecs_sorted : List.Pairwise recLt recs :=
      List.Pairwise.sublist (recs_sublist_inorder recs brs hlen) hs
    cases hf : (searchNode sk recs).1 with
    | true =>
      obtain ⟨g, hloc, hglt, hkey⟩ := searchNode_found hf
      have hmem : recs.getD g default ∈ inorder (BTr.node recs brs) :=
        (recs_sublist_inorder recs brs hlen).subset (getD_mem_rec hglt)
      have hltoNat : (searchNode sk recs).2.toNat = g := by
        rw [hloc]
        exact Int.toNat_natCast g
      constructor
      · intro hnot
        exact absurd (List.mem_map.2 ⟨recs.getD g default, hmem, hkey⟩) hnot
      · intro x hx hxkey
        have hxeq : x = recs.getD g default :=
          rec_unique_of_key hs hx hmem (by rw [hxkey, hkey])
        rw [hxeq, retrieveLoop]
        simp [hf, hltoNat]
    | false =>
      obtain ⟨g, hloc, hgle, hlt, hgt⟩ := searchNode_notFound hrecs_sorted hf
      have hgnat : ((searchNode sk recs).2 + 1).toNat = g := by
        rw [hloc]; omega
      have hchild_mem : getT brs g ∈ brs := getT_mem (by omega)
      have hdec : inorder (BTr.node recs brs) =
          ctxA g recs brs ++ inorder (getT brs g) ++ ctxB g recs brs := by
        rw [inorder_node]
        exact inorder_decomp g recs brs hgle hlen
      have hs' : List.Pairwise recLt
          (ctxA g recs brs ++ inorder (getT brs g) ++ ctxB g recs brs) :=
        hdec ▸ hs
      have hchild_sorted : List.Pairwise recLt (inorder (getT brs g)) := by
        have hsub1 : (inorder (getT brs g)).Sublist
            (ctxA g recs brs ++ inorder (getT brs g) ++ ctxB g recs brs) := by
          rw [List.append_assoc]
          exact (List.sublist_append_left _ _).trans
            (List.sublist_append_right _ _)
        exact List.Pairwise.sublist hsub1 hs'
      have hsep := sep_of_gap hgle hlen hs' hlt hgt
      have hih := ih (getT brs g) hchild_mem hchild_sorted
      have hcomp : retrieveLoop sk (BTr.node recs brs) =
          retrieveLoop sk (getT brs g) := by
        rw [retrieveLoop]
        simp only [hf, hgnat]
        rfl
      constructor
      · intro hnot
        rw [hcomp]
        apply hih.1
        intro hmem
        apply hnot
        obtain ⟨x, hx, hxkey⟩ := List.mem_map.1 hmem
        exact List.mem_map.2 ⟨x, mem_inorder_of_child hgle hlen hx, hxkey⟩
      · intro x hx hxkey
        rw [hcomp]
        refine hih.2 x ?_ hxkey
        rw [hdec] at hx
        rcases List.mem_append.1 hx with hx | hx
        · rcases List.mem_append.1 hx with hx | hx
          · exfalso
            have := hsep.1 x hx
            rw [hxkey] at this
            exact keyLt_irrefl _ this
          · exact hx
        · exfalso
          have := hsep.2 x hx
          rw [hxkey] at this
          exact keyLt_irrefl _ this

/-! ## The session layer: one insert, then a run of inserts -/

theorem pairwise_middle_insert {l1 l2 : List BRec} {r : BRec}
    (hp : List.Pairwise recLt (l1 ++ l2))
    (h1 : ∀ x ∈ l1, keyLt x.key r.key) (h2 : ∀ x ∈ l2, keyLt r.key x.key) :
    List.Pairwise recLt (l1 ++ r :: l2) := by
  rw [List.pairwise_append] at hp ⊢
  obtain ⟨hp1, hp2, hcross⟩ := hp
  refine ⟨hp1, ?_, ?_⟩
  · rw [List.pairwise_cons]
    exact ⟨fun y hy => h2 y hy, hp2⟩
  · intro a ha b hb
    rcases List.mem_cons.1 hb with hb | hb
    · rw [hb]; exact h1 a ha
    · exact hcross a ha b hb

theorem inorder_root_pair (nr : BRec) (t' rt : BTr) :
    inorder (BTr.node [nr] [t', rt]) = inorder t' ++ nr :: inorder rt := by
  rw [inorder_node]
  simp [joinInter, interR]

theorem insertS_step {minK maxK K : Nat} (hm1 : 1 ≤ minK)
    (hm2 : 2 * minK ≤ maxK) {s : BTSession} {prev : List BRec}
    (hopen : s.isOpen = true) (hmode : s.mode = BTMode.wr)
    (hbal : ∃ hh, BalGe minK maxK 1 hh s.tree)
    (hsort : List.Pairwise recLt (inorder s.tree))
    (hperm : (inorder s.tree).Perm prev)
    (k : List Nat) (d : Data)
    (hknew : truncKey K k ∉ prev.map BRec.key) :
    ∃ s', insertS minK maxK K k d s = (none, s') ∧
      s'.isOpen = true ∧ s'.mode = BTMode.wr ∧
      (∃ hh, BalGe minK maxK 1 hh s'.tree) ∧
      List.Pairwise recLt (inorder s'.tree) ∧
      (inorder s'.tree).Perm ((⟨truncKey K k, d⟩ : BRec) :: prev) ∧
      s'.numItems = s.numItems + 1 := by
  obtain ⟨hh, hbal⟩ := hbal
  have hno : ∀ x ∈ inorder s.tree,
      x.key ≠ (⟨truncKey K k, d⟩ : BRec).key := by
    intro x hx hxe
    apply hknew
    refine List.mem_map.2 ⟨x, hperm.subset hx, ?_⟩
    rw [hxe]
  obtain ⟨l1, l2, hin, hl1, hl2, hcase⟩ :=
    ((pushDown_spec hm1 hm2 ⟨truncKey K k, d⟩ hbal) hsort).2 hno
  have hcond : ¬ (s.isOpen = false ∨ s.mode ≠ BTMode.wr) := by
    rw [hopen, hmode]
    simp
  rcases hcase with ⟨t', hpd, hin', hbal'⟩ | ⟨t', nr, rt, hpd, hin', hbL, hbR⟩
  · refine ⟨{ s with tree := t', numItems := s.numItems + 1 }, ?_, hopen,
      hmode, ⟨hh, hbal'⟩, ?_, ?_, rfl⟩
    · rw [insertS, if_neg hcond, hpd]
    · rw [hin']
      exact pairwise_middle_insert (hin ▸ hsort) hl1 hl2
    · rw [hin']
      refine List.Perm.trans List.perm_middle ?_
      rw [← hin]
      exact hperm.cons _
  · refine ⟨{ s with tree := BTr.node [nr] [t', rt], numItems := s.numItems + 1 }, ?_, hopen, hmode, ?_, ?_, ?_, rfl⟩
    · rw [insertS, if_neg hcond, hpd]
    · refine ⟨hh + 1, BalGe.node 1 hh [nr] [t', rt] (by simp)
        (by simp only [List.length_cons, List.length_nil]; omega)
        (by simp) ?_⟩
      intro b hb
      rcases List.mem_cons.1 hb with hb | hb
      · rw [hb]; exact hbL
      · rcases List.mem_cons.1 hb with hb | hb
        · rw [hb]; exact hbR
        · simp at hb
    · rw [inorder_root_pair, hin']
      exact pairwise_middle_insert (hin ▸ hsort) hl1 hl2
    · rw [inorder_root_pair, hin']
      refine List.Perm.trans List.perm_middle ?_
      rw [← hin]
      exact hperm.cons _

theorem runInserts_spec {minK maxK K : Nat} (hm1 : 1 ≤ minK)
    (hm2 : 2 * minK ≤ maxK) :
    ∀ (ps : List (List Nat × Data)) (s : BTSession) (prev : List BRec),
    s.isOpen = true → s.mode = BTMode.wr →
    (∃ hh, BalGe minK maxK 1 hh s.tree) →
    List.Pairwise recLt (inorder s.tree) →
    (inorder s.tree).Perm prev →
    (ps.map fun p => truncKey K p.1).Nodup →
    (∀ p ∈ ps, truncKey K p.1 ∉ prev.map BRec.key) →
    ∃ s', runInserts minK maxK K ps s = (none, s') ∧
      s'.isOpen = true ∧ s'.mode = BTMode.wr ∧
      (∃ hh, BalGe minK maxK 1 hh s'.tree) ∧
      List.Pairwise recLt (inorder s'.tree) ∧
      (inorder s'.tree).Perm
        ((ps.map fun p => (⟨truncKey K p.1, p.2⟩ : BRec)) ++ prev) ∧
      s'.numItems = s.numItems + ps.length := by
  intro ps
  induction ps with
  | nil =>
    intro s prev hopen hmode hbal hsort hperm _ _
    refine ⟨s, rfl, hopen, hmode, hbal, hsort, by simpa using hperm, by simp⟩
  | cons p rest ih =>
    intro s prev hopen hmode hbal hsort hperm hnodup hfresh
    obtain ⟨s1, hins, hopen1, hmode1, hbal1, hsort1, hperm1, hcount1⟩ :=
      insertS_step hm1 hm2 hopen hmode hbal hsort hperm p.1 p.2
        (hfresh p (by simp))
    have hnodup' : (rest.map fun q => truncKey K q.1).Nodup := by
      rw [List.map_cons] at hnodup
      exact hnodup.of_cons
    have hhead : truncKey K p.1 ∉ rest.map fun q => truncKey K q.1 := by
      rw [List.map_cons] at hnodup
      exact (List.nodup_cons.1 hnodup).1
    have hfresh' : ∀ q ∈ rest,
        truncKey K q.1 ∉ ((⟨truncKey K p.1, p.2⟩ : BRec) :: prev).map
          BRec.key := by
      intro q hq hmem
      rw [List.map_cons] at hmem
      rcases List.mem_cons.1 hmem with hmem | hmem
      · apply hhead
        have heq : truncKey K q.1 = truncKey K p.1 := hmem
        rw [← heq]
        exact List.mem_map.2 ⟨q, hq, rfl⟩
      · exact hfresh q (by simp [hq]) hmem
    obtain ⟨s', hrun, hopen', hmode', hbal', hsort', hperm', hcount'⟩ :=
      ih s1 ((⟨truncKey K p.1, p.2⟩ : BRec) :: prev) hopen1 hmode1 hbal1
        hsort1 hperm1 hnodup' hfresh'
    refine ⟨s', ?_, hopen', hmode', hbal', hsort', ?_, ?_⟩
    · show runInserts minK maxK K (p :: rest) s = (none, s')
      rw [runInserts]
      rw [hins]
      exact hrun
    · refine hperm'.trans ?_
      rw [List.map_cons]
      exact List.perm_middle
    · rw [hcount', hcount1, List.length_cons]
      omega

/-! ## Geometry lemmas and claim C4 -/

theorem three_le_orderBT (K D N : Nat) : 3 ≤ orderBT K D N := by
  unfold orderBT
  split <;> omega

theorem one_le_minKeysBT (K D N : Nat) : 1 ≤ minKeysBT K D N := by
  unfold minKeysBT
  have := three_le_orderBT K D N
  omega

theorem two_minKeys_le_maxKeysBT (K D N : Nat) :
    2 * minKeysBT K D N ≤ maxKeysBT K D N := by
  unfold minKeysBT maxKeysBT
  omega

/-- C4: for every configuration with no `size_t` overflow in the node-size
expression, `order()` equals the spec's closed formula
`max(3, floor((N - 4 + (K+D) + B) / ((K+D) + B)))` with `B = 8` (read over
the integers); it is deterministic (a pure function of `(K, D, N)` by
construction); it always satisfies `Order ≥ 3`; and `MaxKeys = Order - 1`,
`MinKeys = (Order - 1) / 2` with integer division. -/
theorem C4_order_formula (K D N : Nat) (hsane : N + K + D + 8 < U64) :
    orderBT K D N = specOrderFormula K D N ∧
    3 ≤ orderBT K D N ∧
    maxKeysBT K D N = orderBT K D N - 1 ∧
    minKeysBT K D N = (orderBT K D N - 1) / 2 := by
  refine ⟨?_, three_le_orderBT K D N, rfl, rfl⟩
  have hnum : u64 (u64 (u64 (N + (U64 - 4)) + recordSizeBT K D) + 8) =
      N + K + D + 4 := by
    simp only [u64, recordSizeBT, U64] at *
    omega
  have hden : u64 (recordSizeBT K D + 8) = K + D + 8 := by
    simp only [u64, recordSizeBT, U64] at *
    omega
  have hcalc : orderCalcBT K D N = (N + K + D + 4) / (K + D + 8) := by
    unfold orderCalcBT
    rw [hnum, hden]
  have hspec : specOrderFormula K D N =
      max 3 ((N + K + D + 4) / (K + D + 8)) := by
    unfold specOrderFormula
    congr 1
    have h1 : ((N : Int) - 4 + ((K : Int) + (D : Int)) + 8) =
        ((N + K + D + 4 : Nat) : Int) := by push_cast; ring
    have h2 : (((K : Int) + (D : Int)) + 8) = ((K + D + 8 : Nat) : Int) := by
      push_cast; ring
    rw [h1, h2, ← Int.ofNat_ediv]
    exact Int.toNat_natCast _
  rw [hspec]
  unfold orderBT
  rw [hcalc]
  rcases Nat.lt_or_ge ((N + K + D + 4) / (K + D + 8)) 3 with hlt | hge
  · rw [if_pos hlt]
    omega
  · rw [if_neg (by omega)]
    omega

/-- Witness for C4 at the library's default-style configuration
`BTree<32, 64, 4096>` (whose order is 40). -/
theorem C4_order_formula_witness :
    (32 + 64 + 4096 + 8 < U64) ∧ orderBT 32 64 4096 = 40 ∧
    (orderBT 32 64 4096 = specOrderFormula 32 64 4096 ∧
     3 ≤ orderBT 32 64 4096 ∧
     maxKeysBT 32 64 4096 = orderBT 32 64 4096 - 1 ∧
     minKeysBT 32 64 4096 = (orderBT 32 64 4096 - 1) / 2) := by
  refine ⟨by decide, by decide, ?_⟩
  have := C4_order_formula 32 64 4096 (by decide)
  omega

/-! ## Claims C7 and C9: `insert` mode check, lookups never raise -/

/-- C7: `insert` on a session that is open in read mode fails with
`NotWritable` and returns the session (tree, item count, and hence the
backing file, which the error path never touches) unchanged.  In the source
the `std::runtime_error` at line 208-210 is thrown before any file write. -/
theorem C7_not_writable (minK maxK K : Nat) (k : List Nat) (d : Data)
    (s : BTSession) (hmode : s.mode = BTMode.rd) :
    insertS minK maxK K k d s = (some BErr.notWritable, s) := by
  rw [insertS, if_pos (Or.inr (by rw [hmode]; simp))]

/-- Witness for C7: a freshly reopened read session. -/
theorem C7_not_writable_witness :
    insertS 1 2 4 [97] [0] ⟨true, BTMode.rd, BTr.nil, 0⟩ =
      (some BErr.notWritable, ⟨true, BTMode.rd, BTr.nil, 0⟩) :=
  C7_not_writable 1 2 4 [97] [0] ⟨true, BTMode.rd, BTr.nil, 0⟩ rfl

/-- C9: `retrieve` and `contains` are total (they return an answer for every
session state and key, never raising): on a session that is not open they
answer "not found"; a descent that reaches a `NilPtr` branch ends with "not
found"; and `contains` is exactly `retrieve` with the payload discarded. -/
theorem C9_lookups_never_raise (K : Nat) (k : List Nat) (s : BTSession) :
    (s.isOpen = false → retrieveS K k s = none ∧ containsS K k s = false) ∧
    retrieveLoop (truncKey K k) BTr.nil = none ∧
    containsS K k s = (retrieveS K k s).isSome := by
  refine ⟨?_, by rw [retrieveLoop], rfl⟩
  intro hclosed
  constructor
  · rw [retrieveS, if_neg (by rw [hclosed]; simp)]
  · rw [containsS, retrieveS, if_neg (by rw [hclosed]; simp)]
    rfl

/-- Witness for C9: a closed session. -/
theorem C9_lookups_never_raise_witness :
    (retrieveS 4 [97] ⟨false, BTMode.rd, BTr.nil, 0⟩ = none ∧
     containsS 4 [97] ⟨false, BTMode.rd, BTr.nil, 0⟩ = false) ∧
    retrieveLoop (truncKey 4 [97]) BTr.nil = none ∧
    containsS 4 [97] ⟨false, BTMode.rd, BTr.nil, 0⟩ =
      (retrieveS 4 [97] ⟨false, BTMode.rd, BTr.nil, 0⟩).isSome := by
  have h := C9_lookups_never_raise 4 [97] ⟨false, BTMode.rd, BTr.nil, 0⟩
  exact ⟨h.1 rfl, h.2⟩

/-! ## Claims C1, C2, C3, C6: the write-session contracts -/

/-- C1: for every sequence of `insert(key, payload)` calls with pairwise
distinct post-truncation keys starting from a fresh write session, every
insert succeeds, and after `close()` and reopening in read mode `retrieve`
returns exactly the inserted payload for every inserted key and "not found"
for every key whose normalised form was not inserted (keys are compared
post-truncation throughout, as the on-disk format only stores the
normalised key). -/
theorem C1_round_trip (K D N : Nat) (ps : List (List Nat × Data))
    (hnodup : (ps.map fun p => truncKey K p.1).Nodup) :
    ∃ s', runInserts (minKeysBT K D N) (maxKeysBT K D N) K ps openWriteS =
        (none, s') ∧
      (∀ p ∈ ps, retrieveS K p.1 (closeReopenRead s') = some p.2) ∧
      (∀ k', truncKey K k' ∉ ps.map (fun p => truncKey K p.1) →
        retrieveS K k' (closeReopenRead s') = none) := by
  obtain ⟨s', hrun, hopen', hmode', ⟨hh, hbal'⟩, hsort', hperm', hcount'⟩ :=
    runInserts_spec (one_le_minKeysBT K D N) (two_minKeys_le_maxKeysBT K D N)
      ps openWriteS [] rfl rfl ⟨0, BalGe.nil 1⟩
      (by simp [openWriteS, inorder_nil])
      (by simp [openWriteS, inorder_nil]) hnodup (by simp)
  refine ⟨s', hrun, ?_, ?_⟩
  · intro p hp
    have hrmem : (⟨truncKey K p.1, p.2⟩ : BRec) ∈ inorder s'.tree := by
      apply hperm'.symm.subset
      simp only [List.append_nil, List.mem_map]
      exact ⟨p, hp, rfl⟩
    show retrieveLoop (truncKey K p.1) s'.tree = some p.2
    exact ((retrieveLoop_spec hbal' (truncKey K p.1)) hsort').2
      ⟨truncKey K p.1, p.2⟩ hrmem rfl
  · intro k' hk'
    show retrieveLoop (truncKey K k') s'.tree = none
    apply ((retrieveLoop_spec hbal' (truncKey K k')) hsort').1
    intro hmem
    obtain ⟨x, hx, hxkey⟩ := List.mem_map.1 hmem
    have hx' : x ∈ (ps.map fun p => (⟨truncKey K p.1, p.2⟩ : BRec)) ++ [] :=
      hperm'.subset hx
    rw [List.append_nil] at hx'
    obtain ⟨p, hp, hpx⟩ := List.mem_map.1 hx'
    apply hk'
    rw [← hxkey, ← hpx]
    exact List.mem_map.2 ⟨p, hp, rfl⟩

/-- Witness for C1: three short keys at the default-style geometry. -/
theorem C1_round_trip_witness :
    (([([97], [1]), ([98], [2]), ([99], [3])].map
        fun p => truncKey 32 p.1) : List (List Nat)).Nodup ∧
    ∃ s', runInserts (minKeysBT 32 64 4096) (maxKeysBT 32 64 4096) 32
        [([97], [1]), ([98], [2]), ([99], [3])] openWriteS = (none, s') ∧
      (∀ p ∈ [([97], [1]), ([98], [2]), ([99], [3])],
        retrieveS 32 p.1 (closeReopenRead s') = some p.2) ∧
      (∀ k', truncKey 32 k' ∉ [([97], [1]), ([98], [2]), ([99], [3])].map
          (fun p => truncKey 32 p.1) →
        retrieveS 32 k' (closeReopenRead s') = none) :=
  ⟨by decide, C1_round_trip 32 64 4096 _ (by decide)⟩

/-- C2: after any sequence of successful (distinct-key) inserts from an
empty write session the stored tree is balanced: `BalGe minK maxK 1 h`
states every non-root node carries between `MinKeys` and `MaxKeys` records,
the root between `1` and `MaxKeys` (the empty tree being `nil`), every node
has `count + 1` live branches, and all leaves sit at the same depth `h`.
In particular the asymmetric median choice
`(location < MinKeys) ? MinKeys : MinKeys + 1` makes both split halves
respect the record-count bounds: the half kept in place retains exactly
`MinKeys` records and the new right node `MaxKeys - MinKeys ≥ MinKeys`. -/
theorem C2_balance_invariant (K D N : Nat) (ps : List (List Nat × Data))
    (hnodup : (ps.map fun p => truncKey K p.1).Nodup) :
    (∃ s', runInserts (minKeysBT K D N) (maxKeysBT K D N) K ps openWriteS =
        (none, s') ∧
      ∃ hh, BalGe (minKeysBT K D N) (maxKeysBT K D N) 1 hh s'.tree) ∧
    (∀ (cr : BRec) (crt : BTr) (recs : List BRec) (brs : List BTr) (g : Nat),
      recs.length = maxKeysBT K D N → brs.length = maxKeysBT K D N + 1 →
      g ≤ maxKeysBT K D N →
      (minKeysBT K D N ≤ countOf
          (splitNode (minKeysBT K D N) cr crt recs brs ((g : Int) - 1)).2.1 ∧
        countOf (splitNode (minKeysBT K D N) cr crt recs brs
          ((g : Int) - 1)).2.1 ≤ maxKeysBT K D N) ∧
      (minKeysBT K D N ≤ countOf
          (splitNode (minKeysBT K D N) cr crt recs brs ((g : Int) - 1)).2.2 ∧
        countOf (splitNode (minKeysBT K D N) cr crt recs brs
          ((g : Int) - 1)).2.2 ≤ maxKeysBT K D N)) := by
  constructor
  · obtain ⟨s', hrun, hopen', hmode', hbal', hsort', hperm', hcount'⟩ :=
      runInserts_spec (one_le_minKeysBT K D N)
        (two_minKeys_le_maxKeysBT K D N) ps openWriteS [] rfl rfl
        ⟨0, BalGe.nil 1⟩ (by simp [openWriteS, inorder_nil])
        (by simp [openWriteS, inorder_nil]) hnodup (by simp)
    exact ⟨s', hrun, hbal'⟩
  · intro cr crt recs brs g hrl hbl hg
    have hm1 := one_le_minKeysBT K D N
    have hm2 := two_minKeys_le_maxKeysBT K D N
    rw [splitNode_eq (minKeysBT K D N) (maxKeysBT K D N) cr crt recs brs g
      hrl hbl hg (by omega)]
    simp only [countOf, List.length_take, List.length_drop, insertAtL_length,
      hrl]
    omega

/-- Witness for C2: the empty insert sequence at the default geometry. -/
theorem C2_balance_invariant_witness :
    (([] : List (List Nat × Data)).map fun p => truncKey 32 p.1).Nodup ∧
    ((∃ s', runInserts (minKeysBT 32 64 4096) (maxKeysBT 32 64 4096) 32 []
        openWriteS = (none, s') ∧
      ∃ hh, BalGe (minKeysBT 32 64 4096) (maxKeysBT 32 64 4096) 1 hh
        s'.tree)) :=
  ⟨by decide, (C2_balance_invariant 32 64 4096 [] (by decide)).1⟩

/-- C3: inserting a key whose normalised form is already present in the
tree of a write session fails with `DuplicateKey` and returns the session
completely unchanged — same `size()`, same tree, and hence the same bytes
on disk: the duplicate is detected on the way down, before `pushDown`
writes any node. -/
theorem C3_duplicate_unchanged (K D N : Nat) (ps : List (List Nat × Data))
    (k : List Nat) (d : Data)
    (hnodup : (ps.map fun p => truncKey K p.1).Nodup)
    (hdup : truncKey K k ∈ ps.map fun p => truncKey K p.1) :
    ∃ s', runInserts (minKeysBT K D N) (maxKeysBT K D N) K ps openWriteS =
        (none, s') ∧
      insertS (minKeysBT K D N) (maxKeysBT K D N) K k d s' =
        (some BErr.duplicateKey, s') := by
  obtain ⟨s', hrun, hopen', hmode', ⟨hh, hbal'⟩, hsort', hperm', hcount'⟩ :=
    runInserts_spec (one_le_minKeysBT K D N) (two_minKeys_le_maxKeysBT K D N)
      ps openWriteS [] rfl rfl ⟨0, BalGe.nil 1⟩
      (by simp [openWriteS, inorder_nil])
      (by simp [openWriteS, inorder_nil]) hnodup (by simp)
  refine ⟨s', hrun, ?_⟩
  obtain ⟨p, hp, hpk⟩ := List.mem_map.1 hdup
  have hmem : (⟨truncKey K p.1, p.2⟩ : BRec) ∈ inorder s'.tree := by
    apply hperm'.symm.subset
    simp only [List.append_nil, List.mem_map]
    exact ⟨p, hp, rfl⟩
  have herr := ((pushDown_spec (one_le_minKeysBT K D N)
      (two_minKeys_le_maxKeysBT K D N) ⟨truncKey K k, d⟩ hbal') hsort').1
    ⟨⟨truncKey K p.1, p.2⟩, hmem, hpk⟩
  have hcond : ¬ (s'.isOpen = false ∨ s'.mode ≠ BTMode.wr) := by
    rw [hopen', hmode']
    simp
  rw [insertS, if_neg hcond, herr]

/-- Witness for C3: re-inserting the only key. -/
theorem C3_duplicate_unchanged_witness :
    (([([97], [1])].map fun p => truncKey 32 p.1) : List (List Nat)).Nodup ∧
    truncKey 32 [97] ∈ [([97], [1])].map (fun p => truncKey 32 p.1) ∧
    ∃ s', runInserts (minKeysBT 32 64 4096) (maxKeysBT 32 64 4096) 32
        [([97], [1])] openWriteS = (none, s') ∧
      insertS (minKeysBT 32 64 4096) (maxKeysBT 32 64 4096) 32 [97] [9] s' =
        (some BErr.duplicateKey, s') :=
  ⟨by decide, by decide,
    C3_duplicate_unchanged 32 64 4096 [([97], [1])] [97] [9] (by decide)
      (by decide)⟩

/-- C6: a key longer than `KeySize - 1` bytes (with no embedded null) is
stored truncated to its first `KeySize - 1` bytes, and after the insert a
retrieve by the truncated key and by the original long key both succeed
with the same payload. -/
theorem C6_truncation (K D N : Nat) (ps : List (List Nat × Data))
    (k : List Nat) (d : Data) (hnz : ∀ c ∈ k, c ≠ 0)
    (hlong : K - 1 < k.length)
    (hnodup : ((ps ++ [(k, d)]).map fun p => truncKey K p.1).Nodup) :
    ∃ s', runInserts (minKeysBT K D N) (maxKeysBT K D N) K (ps ++ [(k, d)])
        openWriteS = (none, s') ∧
      (⟨k.take (K - 1), d⟩ : BRec) ∈ inorder s'.tree ∧
      retrieveS K k s' = some d ∧
      retrieveS K (k.take (K - 1)) s' = some d := by
  obtain ⟨s', hrun, hopen', hmode', ⟨hh, hbal'⟩, hsort', hperm', hcount'⟩ :=
    runInserts_spec (one_le_minKeysBT K D N) (two_minKeys_le_maxKeysBT K D N)
      (ps ++ [(k, d)]) openWriteS [] rfl rfl ⟨0, BalGe.nil 1⟩
      (by simp [openWriteS, inorder_nil])
      (by simp [openWriteS, inorder_nil]) hnodup (by simp)
  have htk : truncKey K k = k.take (K - 1) := truncKey_of_no_zero hnz
  have hrmem : (⟨k.take (K - 1), d⟩ : BRec) ∈ inorder s'.tree := by
    apply hperm'.symm.subset
    simp only [List.append_nil, List.mem_map]
    exact ⟨(k, d), by simp, by rw [htk]⟩
  refine ⟨s', hrun, hrmem, ?_, ?_⟩
  · show (if s'.isOpen then retrieveLoop (truncKey K k) s'.tree else none) =
      some d
    rw [if_pos hopen', htk]
    exact ((retrieveLoop_spec hbal' (k.take (K - 1))) hsort').2
      ⟨k.take (K - 1), d⟩ hrmem rfl
  · show (if s'.isOpen then
      retrieveLoop (truncKey K (k.take (K - 1))) s'.tree else none) = some d
    rw [if_pos hopen', truncKey_take K k hnz, htk]
    exact ((retrieveLoop_spec hbal' (k.take (K - 1))) hsort').2
      ⟨k.take (K - 1), d⟩ hrmem rfl

/-- Witness for C6: a 5-byte key with `KeySize = 4` (3 significant bytes). -/
theorem C6_truncation_witness :
    (∀ c ∈ [97, 98, 99, 100, 101], c ≠ 0) ∧ (4 - 1 < 5) ∧
    ((([] ++ [([97, 98, 99, 100, 101], [7])] :
        List (List Nat × Data)).map fun p => truncKey 4 p.1)).Nodup ∧
    ∃ s', runInserts (minKeysBT 4 8 64) (maxKeysBT 4 8 64) 4
        ([] ++ [([97, 98, 99, 100, 101], [7])]) openWriteS = (none, s') ∧
      (⟨[97, 98, 99, 100, 101].take (4 - 1), [7]⟩ : BRec) ∈
        inorder s'.tree ∧
      retrieveS 4 [97, 98, 99, 100, 101] s' = some [7] ∧
      retrieveS 4 ([97, 98, 99, 100, 101].take (4 - 1)) s' = some [7] :=
  ⟨by decide, by decide, by decide,
    C6_truncation 4 8 64 [] [97, 98, 99, 100, 101] [7] (by decide)
      (by decide) (by decide)⟩

/-! ## The pager byte model and claim C5 -/

theorem writeBlock_length (f : List Nat) (off : Nat) (b : List Nat) :
    (writeBlock f off b).length = max f.length (off + b.length) := by
  unfold writeBlock
  simp only [List.length_append, List.length_take, List.length_replicate,
    List.length_cons, List.length_drop]
  omega

theorem writeBlock_getD_before (f : List Nat) (off : Nat) (b : List Nat)
    (i : Nat) (hi : i < off) :
    (writeBlock f off b).getD i 0 = f.getD i 0 := by
  unfold writeBlock
  rw [List.getD_eq_getElem?_getD, List.getD_eq_getElem?_getD]
  rw [List.getElem?_append_left (by
    simp only [List.length_append, List.length_take, List.length_replicate]
    omega)]
  rw [List.getElem?_append_left (by
    simp only [List.length_append, List.length_take, List.length_replicate]
    omega)]
  rcases Nat.lt_or_ge i f.length with hif | hif
  · rw [List.getElem?_append_left (by rw [List.length_take]; omega)]
    rw [List.getElem?_take_of_lt hi]
  · rw [List.getElem?_append_right (by rw [List.length_take]; omega)]
    rw [List.length_take]
    have hmin : min off f.length = f.length := by omega
    rw [hmin]
    rw [List.getElem?_replicate_of_lt (by omega)]
    rw [List.getElem?_eq_none hif]
    rfl

theorem writeBlock_getD_after (f : List Nat) (off : Nat) (b : List Nat)
    (i : Nat) (hi : off + b.length ≤ i) :
    (writeBlock f off b).getD i 0 = f.getD i 0 := by
  unfold writeBlock
  rw [List.getD_eq_getElem?_getD, List.getD_eq_getElem?_getD]
  rw [List.getElem?_append_right (by
    simp only [List.length_append, List.length_take, List.length_replicate]
    omega)]
  rw [List.getElem?_drop]
  congr 1
  congr 1
  simp only [List.length_append, List.length_take, List.length_replicate]
  omega

theorem writeBlock_getD_at (f : List Nat) (off : Nat) (b : List Nat)
    (j : Nat) (hj : j < b.length) :
    (writeBlock f off b).getD (off + j) 0 = b.getD j 0 := by
  unfold writeBlock
  rw [List.getD_eq_getElem?_getD, List.getD_eq_getElem?_getD]
  rw [List.getElem?_append_left (by
    simp only [List.length_append, List.length_take, List.length_replicate]
    omega)]
  rw [List.getElem?_append_right (by
    simp only [List.length_append, List.length_take, List.length_replicate]
    omega)]
  congr 1
  congr 1
  simp only [List.length_append, List.length_take, List.length_replicate]
  omega

theorem readNodeF_writeNodeF (S : Nat) (f : List Nat) (n : Nat)
    (b : List Nat) (hb : b.length = S) :
    readNodeF S (writeNodeF S f n b) n = b := by
  unfold readNodeF writeNodeF writeBlock
  rw [List.drop_append_eq_append_drop, List.drop_append_eq_append_drop]
  rw [List.drop_eq_nil_of_le (by
    simp only [List.length_append, List.length_take, List.length_replicate]
    omega)]
  rw [List.nil_append]
  have h0 : n * S - (f.take (n * S) ++
      List.replicate (n * S - f.length) 0).length = 0 := by
    simp only [List.length_append, List.length_take, List.length_replicate]
    omega
  rw [h0, List.drop_zero]
  rw [List.take_append_eq_append_take, List.take_of_length_le (by omega)]
  rw [hb, Nat.sub_self, List.take_zero, List.append_nil]

theorem wsession_length {S : Nat} {f : List Nat} {n : Nat}
    (hs : WSession S f n) : f.length = (n + 1) * S := by
  induction hs with
  | init b hb =>
    rw [writeNodeF, writeBlock_length, hb]
    simp
  | writeOld f n id b hs hid hb ih =>
    rw [writeNodeF, writeBlock_length, ih, hb]
    have h1 : id * S + S = (id + 1) * S := by ring
    have h2 : (id + 1) * S ≤ (n + 1) * S :=
      Nat.mul_le_mul_right S (by omega)
    rw [h1]
    omega
  | alloc f n b hs hb ih =>
    rw [writeNodeF, writeBlock_length, ih, hb]
    have h1 : (n + 1) * S + S = (n + 1 + 1) * S := by ring
    have h2 : (n + 1) * S ≤ (n + 1 + 1) * S :=
      Nat.mul_le_mul_right S (by omega)
    rw [h1]
    omega

/-- C5 (amended): node I/O is slot-aligned with slot width
`ActualNodeSize = sizeof(Node)` — not the configured `NodeSize` template
parameter: `writeNode`/`readNode` for node identifier `n` touch exactly the
bytes `n * ActualNodeSize .. (n + 1) * ActualNodeSize - 1`, a read returns
the block last written to the slot, and every file produced by a write
session (so in particular after a clean close, whose final header write is
a `writeOld` of node `0`) has length `(num_nodes + 1) * ActualNodeSize`. -/
theorem C5_pager_layout (K D N : Nat) :
    (∀ (f : List Nat) (n : Nat) (b : List Nat) (i : Nat),
      i < n * actualNodeSizeBT K D N →
      (writeNodeF (actualNodeSizeBT K D N) f n b).getD i 0 = f.getD i 0) ∧
    (∀ (f : List Nat) (n : Nat) (b : List Nat) (i : Nat),
      b.length = actualNodeSizeBT K D N →
      n * actualNodeSizeBT K D N + actualNodeSizeBT K D N ≤ i →
      (writeNodeF (actualNodeSizeBT K D N) f n b).getD i 0 = f.getD i 0) ∧
    (∀ (f : List Nat) (n : Nat) (b : List Nat) (j : Nat), j < b.length →
      (writeNodeF (actualNodeSizeBT K D N) f n b).getD
        (n * actualNodeSizeBT K D N + j) 0 = b.getD j 0) ∧
    (∀ (f : List Nat) (n : Nat) (b : List Nat),
      b.length = actualNodeSizeBT K D N →
      (writeNodeF (actualNodeSizeBT K D N) f n b).length =
        max f.length
          (n * actualNodeSizeBT K D N + actualNodeSizeBT K D N)) ∧
    (∀ (f : List Nat) (n : Nat) (b : List Nat),
      b.length = actualNodeSizeBT K D N →
      readNodeF (actualNodeSizeBT K D N)
        (writeNodeF (actualNodeSizeBT K D N) f n b) n = b) ∧
    (∀ (f : List Nat) (nn : Nat), WSession (actualNodeSizeBT K D N) f nn →
      f.length = (nn + 1) * actualNodeSizeBT K D N) := by
  refine ⟨?_, ?_, ?_, ?_, ?_, ?_⟩
  · intro f n b i hi
    exact writeBlock_getD_before f (n * actualNodeSizeBT K D N) b i hi
  · intro f n b i hb hi
    exact writeBlock_getD_after f (n * actualNodeSizeBT K D N) b i
      (by rw [hb]; omega)
  · intro f n b j hj
    exact writeBlock_getD_at f (n * actualNodeSizeBT K D N) b j hj
  · intro f n b hb
    rw [writeNodeF, writeBlock_length, hb]
  · intro f n b hb
    exact readNodeF_writeNodeF _ f n b hb
  · intro f nn hs
    exact wsession_length hs

/-- Witness for C5 (amended), at the (degenerate but legal) geometry
`K = D = N = 1`, where `sizeof(Node)` is 32 bytes: writing node 0 into an
empty file yields a 32-byte file, as the session-length law predicts. -/
theorem C5_pager_layout_witness :
    (List.replicate 32 (0 : Nat)).length = actualNodeSizeBT 1 1 1 ∧
    (writeNodeF (actualNodeSizeBT 1 1 1) [] 0
      (List.replicate 32 0)).length = (0 + 1) * actualNodeSizeBT 1 1 1 :=
  ⟨by decide, (C5_pager_layout 1 1 1).2.2.2.2.2 _ 0
    (WSession.init (List.replicate 32 0) (by decide))⟩

/-- Counterexample to C5 as stated: the node blocks are `sizeof(Node)`
bytes, which for the documentation's own example configuration
`BTree<32, 64>` (`NodeSize = 4096`) is `4068`, not the configured
node-size `4096`; `readNode(1)` seeks to byte `4068`, not `4096`, and a
freshly closed one-node file is `8136` bytes, not `8192`. -/
theorem C5_counterexample :
    actualNodeSizeBT 32 64 4096 = 4068 ∧
    ¬ actualNodeSizeBT 32 64 4096 = 4096 := by
  decide

/-! ## The binary-search collaborator: sorting -/

theorem cmpStr_le_trans {a b c : List Nat} (h1 : cmpStr a b ≠ Ordering.gt)
    (h2 : cmpStr b c ≠ Ordering.gt) : cmpStr a c ≠ Ordering.gt := by
  rcases cmpStr_total a b with hab | hab | hab
  · rcases cmpStr_total b c with hbc | hbc | hbc
    · have := keyLt_trans hab hbc
      rw [this]; simp
    · rw [(cmpStr_eq_iff b c).1 hbc] at hab
      rw [hab]; simp
    · exact absurd hbc h2
  · rw [(cmpStr_eq_iff a b).1 hab]
    exact h2
  · exact absurd hab h1

theorem perm_insSorted (x : PRec) (l : List PRec) :
    (insSorted x l).Perm (x :: l) := by
  induction l with
  | nil => simp [insSorted]
  | cons y ys ih =>
    rw [insSorted]
    split
    · exact (ih.cons y).trans (List.Perm.swap x y ys)
    · exact List.Perm.refl _

theorem perm_sortRecs (l : List PRec) : (sortRecs l).Perm l := by
  induction l with
  | nil => simp [sortRecs]
  | cons x xs ih =>
    show (insSorted x (sortRecs xs)).Perm (x :: xs)
    exact (perm_insSorted x (sortRecs xs)).trans (ih.cons x)

theorem pairwise_insSorted (x : PRec) (l : List PRec)
    (hp : List.Pairwise
      (fun a b : PRec => cmpStr a.productId b.productId ≠ Ordering.gt) l) :
    List.Pairwise
      (fun a b : PRec => cmpStr a.productId b.productId ≠ Ordering.gt)
      (insSorted x l) := by
  induction l with
  | nil => simp [insSorted]
  | cons y ys ih =>
    rw [insSorted]
    rw [List.pairwise_cons] at hp
    split
    · rw [List.pairwise_cons]
      constructor
      · intro z hz
        rcases List.mem_cons.1 ((perm_insSorted x ys).mem_iff.1 hz) with hz | hz
        · rw [hz]
          have hlt : cmpStr y.productId x.productId = Ordering.lt :=
            (cmpStr_gt_iff _ _).1 (by assumption)
          rw [hlt]; simp
        · exact hp.1 z hz
      · exact ih hp.2
    · rw [List.pairwise_cons]
      constructor
      · intro z hz
        rcases List.mem_cons.1 hz with hz | hz
        · rw [hz]; assumption
        · exact cmpStr_le_trans (by assumption) (hp.1 z hz)
      · rw [List.pairwise_cons]
        exact hp

theorem pairwise_le_sortRecs (l : List PRec) :
    List.Pairwise
      (fun a b : PRec => cmpStr a.productId b.productId ≠ Ordering.gt)
      (sortRecs l) := by
  induction l with
  | nil => simp [sortRecs]
  | cons x xs ih => exact pairwise_insSorted x (sortRecs xs) ih

theorem pairwise_lt_sortRecs (l : List PRec)
    (hnodup : (l.map PRec.productId).Nodup) :
    List.Pairwise
      (fun a b : PRec => keyLt a.productId b.productId) (sortRecs l) := by
  have hnodup' : ((sortRecs l).map PRec.productId).Nodup :=
    (((perm_sortRecs l).map PRec.productId).nodup_iff).2 hnodup
  have hne : List.Pairwise
      (fun a b : PRec => a.productId ≠ b.productId) (sortRecs l) :=
    List.pairwise_map.1 hnodup'
  refine ((pairwise_le_sortRecs l).and hne).imp ?_
  intro a b hab
  rcases cmpStr_total a.productId b.productId with h | h | h
  · exact h
  · exact absurd ((cmpStr_eq_iff _ _).1 h) hab.2
  · exact absurd h hab.1

theorem pairwise_getD_pr {recs : List PRec}
    (hp : List.Pairwise (fun a b : PRec => keyLt a.productId b.productId) recs)
    {i j : Nat} (hij : i < j) (hj : j < recs.length) :
    keyLt ((recs.getD i default).productId) ((recs.getD j default).productId) := by
  rw [List.getD_eq_getElem recs default (by omega), List.getD_eq_getElem recs default hj]
  exact List.pairwise_iff_getElem.1 hp i j (by omega) hj hij

/-! ## Binary search over a sorted on-file array -/

theorem binarySearchPI_sound_aux (target : List Nat) (arr : List PRec) :
    ∀ fuel left right k, right - left ≤ fuel →
    binarySearchPI target arr left right = some k →
    ∃ i, left ≤ i ∧ i < right ∧ (arr.getD i default).productId = target ∧
      (arr.getD i default).nodeKey = k := by
  intro fuel
  induction fuel with
  | zero =>
    intro left right k hf hbs
    rw [binarySearchPI, dif_neg (by omega)] at hbs
    cases hbs
  | succ n ih =>
    intro left right k hf hbs
    rw [binarySearchPI] at hbs
    by_cases hlr : left < right
    · rw [dif_pos hlr] at hbs
      rcases hcm : cmpStr target (arr.getD (left + (right - left) / 2) default).productId
        with h | h | h
      · simp only [hcm] at hbs
        rcases ih left (left + (right - left) / 2) k (by omega) hbs with
          ⟨i, hi1, hi2, hi3, hi4⟩
        exact ⟨i, hi1, by omega, hi3, hi4⟩
      · simp only [hcm, Option.some.injEq] at hbs
        refine ⟨left + (right - left) / 2, by omega, by omega, ?_, hbs⟩
        exact ((cmpStr_eq_iff _ _).1 hcm).symm
      · simp only [hcm] at hbs
        rcases ih (left + (right - left) / 2 + 1) right k (by omega) hbs with
          ⟨i, hi1, hi2, hi3, hi4⟩
        exact ⟨i, by omega, hi2, hi3, hi4⟩
    · rw [dif_neg hlr] at hbs
      cases hbs

theorem binarySearchPI_complete_aux (target : List Nat) (arr : List PRec)
    (hsorted : List.Pairwise
      (fun a b : PRec => keyLt a.productId b.productId) arr) :
    ∀ fuel left right i, right - left ≤ fuel → right ≤ arr.length →
    left ≤ i → i < right → (arr.getD i default).productId = target →
    (binarySearchPI target arr left right).isSome = true := by
  intro fuel
  induction fuel with
  | zero => intro left right i hf _ h1 h2 _; omega
  | succ n ih =>
    intro left right i hf hr h1 h2 htar
    have hlr : left < right := by omega
    rw [binarySearchPI, dif_pos hlr]
    rcases hcm : cmpStr target (arr.getD (left + (right - left) / 2) default).productId
      with h | h | h
    · simp only [hcm]
      have himid : i < left + (right - left) / 2 := by
        by_contra hge
        rcases Nat.lt_or_ge (left + (right - left) / 2) i with hgt | hle
        · have := pairwise_getD_pr hsorted hgt (by omega)
          rw [htar] at this
          rw [(cmpStr_gt_iff _ _).2 this] at hcm
          cases hcm
        · have : i = left + (right - left) / 2 := by omega
          rw [this] at htar
          rw [← htar, cmpStr_self] at hcm
          cases hcm
      exact ih left (left + (right - left) / 2) i (by omega) (by omega) h1 himid htar
    · simp only [hcm, Option.isSome_some]
    · simp only [hcm]
      have himid : left + (right - left) / 2 < i := by
        by_contra hge
        rcases Nat.lt_or_ge i (left + (right - left) / 2) with hgt | hle
        · have := pairwise_getD_pr hsorted hgt (by omega)
          rw [htar] at this
          rw [this] at hcm
          cases hcm
        · have : i = left + (right - left) / 2 := by omega
          rw [this] at htar
          rw [← htar, cmpStr_self] at hcm
          cases hcm
      exact ih (left + (right - left) / 2 + 1) right i (by omega) hr
        (by omega) h2 htar

/-! ## buildIndex / lookup characterisation -/

theorem addAllPI_buffer (adds : List (List Nat × Int)) :
    ∀ st : PIState, addAllPI adds st =
      { st with buffer := st.buffer ++ adds.map fun p => mkPRec p.1 p.2 } := by
  induction adds with
  | nil => intro st; simp [addAllPI]
  | cons p rest ih =>
    intro st
    obtain ⟨id, k⟩ := p
    show addAllPI rest (addRecordPI id k st) = _
    rw [ih]
    simp [addRecordPI]

theorem buildIndexPI_nonempty (st : PIState) (h : st.buffer ≠ []) :
    buildIndexPI st = (true,
      ⟨[], true, (sortRecs st.buffer).length,
        some ((sortRecs st.buffer).length, sortRecs st.buffer)⟩) := by
  have hcond : st.buffer.isEmpty = false := by
    cases hl : st.buffer with
    | nil => exact absurd hl h
    | cons a l => rfl
  unfold buildIndexPI
  rw [hcond]
  rfl

theorem lookupPI_built (S : List PRec) (id : List Nat) (hS : S.length ≠ 0) :
    lookupPI id ⟨[], true, S.length, some (S.length, S)⟩ =
      binarySearchPI (truncId id) S 0 S.length := by
  unfold lookupPI
  rw [if_neg]
  · rintro (hc | hc)
    · exact Bool.noConfusion hc
    · exact hS hc

/-- **C8.** For every sequence of `addRecord(id, key)` calls with
pairwise-distinct post-truncation ids followed by `buildIndex`, the build
succeeds (returns `true`), and the subsequent binary search `lookup(id)`
over the sorted persisted records finds exactly the key added for each
added id, while any id not added is reported absent. -/
theorem C8_product_index_lookup (adds : List (List Nat × Int))
    (hne : adds ≠ [])
    (hnodup : (adds.map fun p => truncId p.1).Nodup) :
    (buildIndexPI (addAllPI adds piInit)).1 = true ∧
    (∀ p ∈ adds, lookupPI p.1 (buildIndexPI (addAllPI adds piInit)).2 = some p.2) ∧
    (∀ q : List Nat, truncId q ∉ adds.map (fun p => truncId p.1) →
      lookupPI q (buildIndexPI (addAllPI adds piInit)).2 = none) := by
  have hadd : addAllPI adds piInit =
      { piInit with buffer := adds.map fun p => mkPRec p.1 p.2 } := by
    rw [addAllPI_buffer]
    rfl
  have hMne : adds.map (fun p => mkPRec p.1 p.2) ≠ [] := by
    cases adds with
    | nil => exact absurd rfl hne
    | cons a rest => simp
  have hbuild : buildIndexPI (addAllPI adds piInit) =
      (true, ⟨[], true, (sortRecs (adds.map fun p => mkPRec p.1 p.2)).length,
        some ((sortRecs (adds.map fun p => mkPRec p.1 p.2)).length,
          sortRecs (adds.map fun p => mkPRec p.1 p.2))⟩) := by
    rw [hadd]
    exact buildIndexPI_nonempty _ hMne
  have hmapid : (adds.map fun p => mkPRec p.1 p.2).map PRec.productId
      = adds.map fun p => truncId p.1 := by
    rw [List.map_map]
    rfl
  have hsorted := pairwise_lt_sortRecs (adds.map fun p => mkPRec p.1 p.2)
    (by rw [hmapid]; exact hnodup)
  have hperm := perm_sortRecs (adds.map fun p => mkPRec p.1 p.2)
  have hlenpos : (sortRecs (adds.map fun p => mkPRec p.1 p.2)).length ≠ 0 := by
    rw [hperm.length_eq]
    cases adds with
    | nil => exact absurd rfl hne
    | cons a rest => simp
  refine ⟨by rw [hbuild], ?_, ?_⟩
  · intro p hp
    rw [hbuild]
    rw [lookupPI_built _ _ hlenpos]
    have hmem : mkPRec p.1 p.2 ∈ sortRecs (adds.map fun p => mkPRec p.1 p.2) :=
      hperm.mem_iff.2 (List.mem_map.2 ⟨p, hp, rfl⟩)
    obtain ⟨i, hi, hival⟩ := List.getElem_of_mem hmem
    have higetD : (sortRecs (adds.map fun p => mkPRec p.1 p.2)).getD i default
        = mkPRec p.1 p.2 := by
      rw [List.getD_eq_getElem _ _ hi, hival]
    have hcomp := binarySearchPI_complete_aux (truncId p.1)
      (sortRecs (adds.map fun p => mkPRec p.1 p.2)) hsorted
      (sortRecs (adds.map fun p => mkPRec p.1 p.2)).length 0
      (sortRecs (adds.map fun p => mkPRec p.1 p.2)).length i
      (by omega) (le_refl _) (Nat.zero_le i) hi (by rw [higetD]; rfl)
    obtain ⟨k, hk⟩ := Option.isSome_iff_exists.1 hcomp
    obtain ⟨j, hj0, hjlt, hjid, hjkey⟩ := binarySearchPI_sound_aux (truncId p.1)
      (sortRecs (adds.map fun p => mkPRec p.1 p.2))
      (sortRecs (adds.map fun p => mkPRec p.1 p.2)).length 0
      (sortRecs (adds.map fun p => mkPRec p.1 p.2)).length k
      (by omega) hk
    have hjmem : (sortRecs (adds.map fun p => mkPRec p.1 p.2)).getD j default
        ∈ adds.map (fun p => mkPRec p.1 p.2) := by
      rw [List.getD_eq_getElem _ _ hjlt]
      exact hperm.mem_iff.1 (List.getElem_mem _)
    obtain ⟨p', hp', hp'eq⟩ := List.mem_map.1 hjmem
    have hid' : truncId p'.1 = truncId p.1 := by
      rw [← hp'eq] at hjid
      exact hjid
    have hpp : p' = p := List.inj_on_of_nodup_map hnodup hp' hp hid'
    rw [hk]
    rw [← hp'eq] at hjkey
    rw [hpp] at hjkey
    rw [← hjkey]
    rfl
  · intro q hq
    rw [hbuild]
    rw [lookupPI_built _ _ hlenpos]
    cases hbs : binarySearchPI (truncId q)
        (sortRecs (adds.map fun p => mkPRec p.1 p.2)) 0
        (sortRecs (adds.map fun p => mkPRec p.1 p.2)).length with
    | none => rfl
    | some k =>
      exfalso
      obtain ⟨j, hj0, hjlt, hjid, hjkey⟩ := binarySearchPI_sound_aux (truncId q)
        (sortRecs (adds.map fun p => mkPRec p.1 p.2))
        (sortRecs (adds.map fun p => mkPRec p.1 p.2)).length 0
        (sortRecs (adds.map fun p => mkPRec p.1 p.2)).length k
        (by omega) hbs
      have hjmem : (sortRecs (adds.map fun p => mkPRec p.1 p.2)).getD j default
          ∈ adds.map (fun p => mkPRec p.1 p.2) := by
        rw [List.getD_eq_getElem _ _ hjlt]
        exact hperm.mem_iff.1 (List.getElem_mem _)
      obtain ⟨p', hp', hp'eq⟩ := List.mem_map.1 hjmem
      apply hq
      rw [← hjid, ← hp'eq]
      exact List.mem_map.2 ⟨p', hp', rfl⟩

/-- Concrete instance of C8: two records with distinct ids, build succeeds. -/
theorem C8_product_index_lookup_witness :
    ([([97], (5 : Int)), ([98], 7)] : List (List Nat × Int)) ≠ [] ∧
    (([([97], (5 : Int)), ([98], 7)] : List (List Nat × Int)).map
      fun p => truncId p.1).Nodup ∧
    (buildIndexPI (addAllPI [([97], (5 : Int)), ([98], 7)] piInit)).1 = true :=
  ⟨by decide, by decide,
    (C8_product_index_lookup [([97], (5 : Int)), ([98], 7)]
      (by decide) (by decide)).1⟩

/-- The spec says a `buildIndex` call on an empty buffer "leaves the index
closed"; after a previous successful `buildIndex` (which consumed the buffer
and auto-opened the index), a second call returns `false` but the index stays
open. -/
theorem C10_counterexample :
    (buildIndexPI (buildIndexPI (addRecordPI [97] 1 piInit)).2).1 = false ∧
    ((buildIndexPI (addRecordPI [97] 1 piInit)).2).buffer = [] ∧
    (buildIndexPI (buildIndexPI (addRecordPI [97] 1 piInit)).2).2.isOpen = true := by
  decide

/-- **C10 (amended).** Calling `buildIndex` with an empty in-memory buffer —
including right after a previous `buildIndex` consumed it — returns `false`
without writing or truncating any file and leaves the whole state (file,
buffer, record count, and the open/closed status) unchanged; in particular
the index ends closed only if it was already closed. -/
theorem C10_build_empty_noop (st : PIState) (hemp : st.buffer = []) :
    buildIndexPI st = (false, st) := by
  unfold buildIndexPI
  rw [hemp]
  rfl

/-- Concrete instance of C10 (amended) at a fresh index. -/
theorem C10_build_empty_noop_witness :
    piInit.buffer = [] ∧ buildIndexPI piInit = (false, piInit) :=
  ⟨rfl, C10_build_empty_noop piInit rfl⟩
